import Mathlib

/-!
Shallow embedding of the mathematical core of the so3-visualizer repository
(`src/math/vec3.ts`, `src/math/quaternion.ts`, `src/math/so3.ts`,
`src/math/su2.ts`, `src/math/loops.ts`) over the real numbers, together with
proofs and refutations of the specified properties.

JavaScript `number` arithmetic is modelled by exact real arithmetic; the
source code's epsilon guards (`EPSILON = 1e-10`, boundary band `1e-4`) are
kept literally.
-/

namespace SO3Viz

/-- `EPSILON = 1e-10` from `vec3.ts`. -/
noncomputable def EPSILON : ℝ := 1 / 10 ^ 10

/-- `PI = Math.PI` from `vec3.ts`. -/
noncomputable def PI : ℝ := Real.pi

/-- 3D vector `{x, y, z}` from `vec3.ts`. -/
@[ext]
structure Vec3 where
  x : ℝ
  y : ℝ
  z : ℝ

/-- `vec3(x, y, z)` constructor from `vec3.ts`. -/
def vec3 (x y z : ℝ) : Vec3 := ⟨x, y, z⟩

/-- `vec3Norm(v) = sqrt(x*x + y*y + z*z)` from `vec3.ts`. -/
noncomputable def vec3Norm (v : Vec3) : ℝ :=
  Real.sqrt (v.x * v.x + v.y * v.y + v.z * v.z)

/-- `vec3Scale(v, s)` from `vec3.ts`. -/
def vec3Scale (v : Vec3) (s : ℝ) : Vec3 := ⟨v.x * s, v.y * s, v.z * s⟩

/-- `vec3Negate(v)` from `vec3.ts`. -/
def vec3Negate (v : Vec3) : Vec3 := ⟨-v.x, -v.y, -v.z⟩

/-- `vec3Sub(a, b)` from `vec3.ts`. -/
def vec3Sub (a b : Vec3) : Vec3 := ⟨a.x - b.x, a.y - b.y, a.z - b.z⟩

/-- `vec3Normalize(v)` from `vec3.ts`: zero vectors map to the default
axis `(0, 0, 1)`. -/
noncomputable def vec3Normalize (v : Vec3) : Vec3 :=
  if vec3Norm v < EPSILON then ⟨0, 0, 1⟩
  else ⟨v.x / vec3Norm v, v.y / vec3Norm v, v.z / vec3Norm v⟩

/-- Unit quaternion `{w, x, y, z}` from `quaternion.ts`. -/
@[ext]
structure Quaternion where
  w : ℝ
  x : ℝ
  y : ℝ
  z : ℝ

/-- `Quaternion.identity()` from `quaternion.ts`. -/
def Quaternion.identity : Quaternion := ⟨1, 0, 0, 0⟩

/-- `Quaternion.fromAxisAngle(axis, angle)` from `quaternion.ts`. -/
noncomputable def Quaternion.fromAxisAngle (axis : Vec3) (angle : ℝ) : Quaternion :=
  let n := vec3Normalize axis
  let halfAngle := angle / 2
  let s := Real.sin halfAngle
  ⟨Real.cos halfAngle, s * n.x, s * n.y, s * n.z⟩

/-- `Quaternion.fromSO3Point(v)` from `quaternion.ts`. -/
noncomputable def Quaternion.fromSO3Point (v : Vec3) : Quaternion :=
  let theta := vec3Norm v
  if theta < EPSILON then Quaternion.identity
  else Quaternion.fromAxisAngle (vec3Scale v (1 / theta)) theta

/-- `q.negate()` from `quaternion.ts`. -/
def Quaternion.negate (q : Quaternion) : Quaternion := ⟨-q.w, -q.x, -q.y, -q.z⟩

/-- `q.dot(other)` from `quaternion.ts`. -/
def Quaternion.dot (q other : Quaternion) : ℝ :=
  q.w * other.w + q.x * other.x + q.y * other.y + q.z * other.z

/-- `q.approxEqual(other, eps)` from `quaternion.ts` (componentwise). -/
def Quaternion.approxEqual (q other : Quaternion) (eps : ℝ) : Prop :=
  |q.w - other.w| < eps ∧ |q.x - other.x| < eps ∧
  |q.y - other.y| < eps ∧ |q.z - other.z| < eps

noncomputable instance (q r : Quaternion) (eps : ℝ) : Decidable (q.approxEqual r eps) := by
  unfold Quaternion.approxEqual; infer_instance

/-- `isOnBoundary(p, epsilon)` from `so3.ts` (default `epsilon = 1e-4`). -/
noncomputable def isOnBoundary (p : Vec3) (epsilon : ℝ) : Prop :=
  |vec3Norm p - PI| < epsilon

noncomputable instance (p : Vec3) (e : ℝ) : Decidable (isOnBoundary p e) := by
  unfold isOnBoundary; infer_instance

/-- `canonicalize(p)` from `so3.ts`: for boundary points, pick the
representative of the pair with its first nonzero coordinate positive. -/
noncomputable def canonicalize (p : Vec3) : Vec3 :=
  if ¬ isOnBoundary p (1 / 10 ^ 4) then p
  else if EPSILON < |p.x| then (if 0 < p.x then p else vec3Negate p)
  else if EPSILON < |p.y| then (if 0 < p.y then p else vec3Negate p)
  else if EPSILON < |p.z| then (if 0 < p.z then p else vec3Negate p)
  else p

/-- One iteration of the sheet-selection loop of `liftPath` in `su2.ts`:
negate the candidate quaternion when its dot product with the previous
lifted quaternion is negative. -/
noncomputable def liftStep (prev : Quaternion) (p : Vec3) : Quaternion :=
  let qi := Quaternion.fromSO3Point p
  if qi.dot prev < 0 then qi.negate else qi

/-- The tail of the `liftPath` loop in `su2.ts`, carrying the previously
lifted quaternion. -/
noncomputable def liftFrom (prev : Quaternion) : List Vec3 → List Quaternion
  | [] => []
  | p :: ps =>
      let q := liftStep prev p
      q :: liftFrom q ps

/-- `liftPath(so3Points)` from `su2.ts`: the first point is lifted to the
representative with `w ≥ 0`, each later point to the sign candidate with
non-negative dot product with its predecessor. -/
noncomputable def liftPath : List Vec3 → List Quaternion
  | [] => []
  | p :: ps =>
      let q0 := Quaternion.fromSO3Point p
      let q1 := if q0.w < 0 then q0.negate else q0
      q1 :: liftFrom q1 ps

/-- `isLiftedPathClosed(path, eps)` from `su2.ts` (default `eps = 1e-4`). -/
noncomputable def isLiftedPathClosed (path : List Quaternion) (eps : ℝ) : Prop :=
  if path.length < 2 then True
  else (path.getD 0 Quaternion.identity).approxEqual
    (path.getD (path.length - 1) Quaternion.identity) eps

/-- `isLiftedPathAntipodal(path, eps)` from `su2.ts` (default `eps = 1e-4`). -/
noncomputable def isLiftedPathAntipodal (path : List Quaternion) (eps : ℝ) : Prop :=
  if path.length < 2 then False
  else (path.getD 0 Quaternion.identity).approxEqual
    ((path.getD (path.length - 1) Quaternion.identity).negate) eps

/-- JavaScript truncation toward zero, used by the `%` operator. -/
noncomputable def jsTrunc (x : ℝ) : ℤ := if 0 ≤ x then ⌊x⌋ else ⌈x⌉

/-- JavaScript remainder `a % b` (sign follows the dividend). -/
noncomputable def jsMod (a b : ℝ) : ℝ := a - b * (jsTrunc (a / b) : ℝ)

/-- `theta = angle % (2π); if (theta < 0) theta += 2π` as used by
`angleToBallPoint` in `loops.ts` and `axisAngleToPoint` in `so3.ts`. -/
noncomputable def wrapTwoPi (angle : ℝ) : ℝ :=
  let theta := jsMod angle (2 * PI)
  if theta < 0 then theta + 2 * PI else theta

/-- `angleToBallPoint(axis, angle)` from `loops.ts`: wrap the angle into
`[0, 2π)`, snap the epsilon band around multiples of `2π` to the origin,
and fold angles beyond `π` onto the negated axis. -/
noncomputable def angleToBallPoint (axis : Vec3) (angle : ℝ) : Vec3 :=
  let theta := wrapTwoPi angle
  if theta < EPSILON ∨ |theta - 2 * PI| < EPSILON then ⟨0, 0, 0⟩
  else if theta ≤ PI then vec3Scale axis theta
  else vec3Scale (vec3Negate axis) (2 * PI - theta)

/-- `angleToBallPointGeneral(axis, angle)` from `loops.ts`: same as
`angleToBallPoint` but with an initial small-angle guard and the raw
JavaScript remainder (no negativity adjustment). -/
noncomputable def angleToBallPointGeneral (axis : Vec3) (angle : ℝ) : Vec3 :=
  if angle < EPSILON then ⟨0, 0, 0⟩
  else
    let theta := jsMod angle (2 * PI)
    if theta < EPSILON ∨ |theta - 2 * PI| < EPSILON then ⟨0, 0, 0⟩
    else if theta ≤ PI then vec3Scale axis theta
    else vec3Scale (vec3Negate axis) (2 * PI - theta)

/-- `LoopPath` record from `loops.ts`. -/
structure LoopPath where
  points : List Vec3
  quaternions : List Quaternion
  jumpIndices : List ℕ
  totalAngle : ℝ
  numSamples : ℕ

/-- `generateLoop(axis, totalAngle, numSamples)` from `loops.ts`:
`numSamples + 1` samples at `t = i/numSamples`, quaternion track via
`fromAxisAngle`, ball track via `angleToBallPoint`, and jump detection by
the Euclidean-distance-above-π test on consecutive ball points. -/
noncomputable def generateLoop (axis : Vec3) (totalAngle : ℝ) (numSamples : ℕ) : LoopPath :=
  let n := vec3Normalize axis
  let points := (List.range (numSamples + 1)).map
    (fun (i : ℕ) => angleToBallPoint n ((i : ℝ) / (numSamples : ℝ) * totalAngle))
  let quaternions := (List.range (numSamples + 1)).map
    (fun (i : ℕ) => Quaternion.fromAxisAngle n ((i : ℝ) / (numSamples : ℝ) * totalAngle))
  let jumpIndices := (List.range' 1 numSamples).filter
    (fun i =>
      let prev := points.getD (i - 1) (vec3 0 0 0)
      let curr := points.getD i (vec3 0 0 0)
      decide (PI < vec3Norm (vec3 (curr.x - prev.x) (curr.y - prev.y) (curr.z - prev.z))))
  ⟨points, quaternions, jumpIndices, totalAngle, numSamples⟩

/-- `getLoopPoint(axis, totalAngle, t)` from `loops.ts`. -/
noncomputable def getLoopPoint (axis : Vec3) (totalAngle t : ℝ) : Vec3 :=
  let n := vec3Normalize axis
  let currentAngle := t * totalAngle
  angleToBallPoint n currentAngle

/-- `getLoopQuaternion(axis, totalAngle, t)` from `loops.ts`. -/
noncomputable def getLoopQuaternion (axis : Vec3) (totalAngle t : ℝ) : Quaternion :=
  let n := vec3Normalize axis
  let currentAngle := t * totalAngle
  Quaternion.fromAxisAngle n currentAngle

/-- `contractedLoopPoints(axis, contractionParam, numSamples)` from
`loops.ts`: the out-and-back homotopy of the 4π loop, excursion angle
`(1-s)·4π·t` outbound and `(1-s)·4π·(1-t)` inbound. -/
noncomputable def contractedLoopPoints (axis : Vec3) (contractionParam : ℝ)
    (numSamples : ℕ) : List Vec3 :=
  let n := vec3Normalize axis
  let s := contractionParam
  (List.range (numSamples + 1)).map (fun (i : ℕ) =>
    let t := (i : ℝ) / (numSamples : ℝ)
    let currentAngle := if t ≤ 1 / 2 then (1 - s) * 4 * PI * t else (1 - s) * 4 * PI * (1 - t)
    angleToBallPointGeneral n currentAngle)

/-- The maximum of `vec3Norm` over `contractedLoopPoints` — the quantity
whose monotonicity in `s` the specification asserts. -/
noncomputable def contractedMaxNorm (axis : Vec3) (s : ℝ) (N : ℕ) : ℝ :=
  ((contractedLoopPoints axis s N).map vec3Norm).foldr max 0

/-! ### Basic numeric facts -/

theorem EPSILON_pos : 0 < EPSILON := by norm_num [EPSILON]

theorem EPSILON_lt_one : EPSILON < 1 := by norm_num [EPSILON]

theorem PI_pos : 0 < PI := Real.pi_pos

theorem PI_gt_three : 3 < PI := by
  simpa [PI] using Real.pi_gt_three

theorem EPSILON_lt_PI : EPSILON < PI :=
  lt_trans (lt_trans EPSILON_lt_one (by norm_num)) PI_gt_three

/-! ### Vector norm facts -/

theorem vec3Norm_nonneg (v : Vec3) : 0 ≤ vec3Norm v := Real.sqrt_nonneg _

theorem vec3Norm_zero : vec3Norm ⟨0, 0, 0⟩ = 0 := by
  simp [vec3Norm]

theorem vec3Norm_scale (v : Vec3) (c : ℝ) :
    vec3Norm (vec3Scale v c) = |c| * vec3Norm v := by
  unfold vec3Norm vec3Scale
  rw [show v.x * c * (v.x * c) + v.y * c * (v.y * c) + v.z * c * (v.z * c)
      = c ^ 2 * (v.x * v.x + v.y * v.y + v.z * v.z) by ring]
  rw [Real.sqrt_mul (sq_nonneg c), Real.sqrt_sq_eq_abs]

theorem vec3Norm_negate (v : Vec3) : vec3Norm (vec3Negate v) = vec3Norm v := by
  unfold vec3Norm vec3Negate
  ring_nf

theorem vec3Scale_zero (v : Vec3) : vec3Scale v 0 = ⟨0, 0, 0⟩ := by
  simp [vec3Scale]

theorem vec3Scale_neg (v : Vec3) (c : ℝ) :
    vec3Scale v (-c) = vec3Scale (vec3Negate v) c := by
  simp only [vec3Scale, vec3Negate, Vec3.mk.injEq]
  refine ⟨by ring, by ring, by ring⟩

theorem vec3Normalize_unit {v : Vec3} (h : vec3Norm v = 1) : vec3Normalize v = v := by
  unfold vec3Normalize
  rw [h]
  rw [if_neg (by linarith [EPSILON_lt_one])]
  simp

theorem vec3Norm_normalize (v : Vec3) : vec3Norm (vec3Normalize v) = 1 := by
  unfold vec3Normalize
  by_cases h : vec3Norm v < EPSILON
  · rw [if_pos h]
    unfold vec3Norm
    norm_num
  · rw [if_neg h]
    have hpos : 0 < vec3Norm v := lt_of_lt_of_le EPSILON_pos (not_lt.mp h)
    have : (⟨v.x / vec3Norm v, v.y / vec3Norm v, v.z / vec3Norm v⟩ : Vec3)
        = vec3Scale v (1 / vec3Norm v) := by
      simp only [vec3Scale, Vec3.mk.injEq]
      refine ⟨by ring, by ring, by ring⟩
    rw [this, vec3Norm_scale]
    rw [abs_of_pos (one_div_pos.mpr hpos)]
    field_simp

theorem vec3Norm_unit_of_normSq {v : Vec3} (h : v.x * v.x + v.y * v.y + v.z * v.z = 1) :
    vec3Norm v = 1 := by
  unfold vec3Norm
  rw [h, Real.sqrt_one]

theorem normSq_of_vec3Norm_unit {v : Vec3} (h : vec3Norm v = 1) :
    v.x * v.x + v.y * v.y + v.z * v.z = 1 := by
  have h0 : 0 ≤ v.x * v.x + v.y * v.y + v.z * v.z :=
    add_nonneg (add_nonneg (mul_self_nonneg _) (mul_self_nonneg _)) (mul_self_nonneg _)
  have := congrArg (fun t => t ^ 2) h
  simpa [vec3Norm, Real.sq_sqrt h0] using this

/-! ### The wrapped angle -/

theorem two_PI_pos : 0 < 2 * PI := by
  have := PI_pos; linarith

theorem wrapTwoPi_eq_fract (a : ℝ) :
    wrapTwoPi a = 2 * PI * Int.fract (a / (2 * PI)) := by
  have h2 : (0:ℝ) < 2 * PI := two_PI_pos
  have ha : 2 * PI * (a / (2 * PI)) = a := by field_simp
  unfold wrapTwoPi jsMod jsTrunc
  set q := a / (2 * PI) with hq
  by_cases h0 : 0 ≤ q
  · rw [if_pos h0]
    have hnn : 0 ≤ a - 2 * PI * (⌊q⌋ : ℝ) := by
      have hfl : (⌊q⌋ : ℝ) ≤ q := Int.floor_le q
      nlinarith
    rw [if_neg (not_lt.mpr hnn)]
    have := Int.self_sub_floor q
    nlinarith [Int.self_sub_floor q]
  · rw [if_neg h0]
    rcases Int.fract_eq_zero_or_add_one_sub_ceil q with hz | hc
    · have hqi : q = (⌊q⌋ : ℝ) := by
        have := Int.self_sub_floor q
        rw [hz] at this
        linarith
      have hce : (⌈q⌉ : ℤ) = ⌊q⌋ := by
        rw [hqi, Int.ceil_intCast, Int.floor_intCast]
      rw [hce, hz]
      have hz2 : a - 2 * PI * (⌊q⌋ : ℝ) = 0 := by
        have := Int.self_sub_floor q
        rw [hz] at this
        nlinarith
      rw [hz2, if_neg (lt_irrefl 0), mul_zero]
    · have hlt : a - 2 * PI * (⌈q⌉ : ℝ) < 0 := by
        have h1 : Int.fract q < 1 := Int.fract_lt_one q
        have : q - (⌈q⌉ : ℝ) = Int.fract q - 1 := by linarith [hc]
        nlinarith
      rw [if_pos hlt]
      have : q - (⌈q⌉ : ℝ) = Int.fract q - 1 := by linarith [hc]
      nlinarith

theorem wrapTwoPi_nonneg (a : ℝ) : 0 ≤ wrapTwoPi a := by
  rw [wrapTwoPi_eq_fract]
  have := Int.fract_nonneg (a / (2 * PI))
  nlinarith [two_PI_pos]

theorem wrapTwoPi_lt (a : ℝ) : wrapTwoPi a < 2 * PI := by
  rw [wrapTwoPi_eq_fract]
  have := Int.fract_lt_one (a / (2 * PI))
  nlinarith [two_PI_pos]

theorem wrapTwoPi_eq_sub (a : ℝ) (m : ℤ) (h1 : 2 * PI * m ≤ a) (h2 : a < 2 * PI * (m + 1)) :
    wrapTwoPi a = a - 2 * PI * m := by
  have h2p : (0:ℝ) < 2 * PI := two_PI_pos
  have hfl : ⌊a / (2 * PI)⌋ = m := by
    rw [Int.floor_eq_iff]
    constructor
    · rw [le_div_iff h2p]; nlinarith
    · rw [div_lt_iff h2p]; nlinarith
  rw [wrapTwoPi_eq_fract, Int.fract, hfl]
  field_simp

theorem wrapTwoPi_id (a : ℝ) (h1 : 0 ≤ a) (h2 : a < 2 * PI) : wrapTwoPi a = a := by
  have := wrapTwoPi_eq_sub a 0 (by simpa) (by push_cast; linarith)
  simpa using this

theorem jsMod_nonneg_eq (a : ℝ) (h : 0 ≤ a) : jsMod a (2 * PI) = wrapTwoPi a := by
  have h2 : (0:ℝ) < 2 * PI := two_PI_pos
  have hq : 0 ≤ a / (2 * PI) := div_nonneg h (le_of_lt h2)
  unfold wrapTwoPi jsMod jsTrunc
  rw [if_pos hq]
  have ha : 2 * PI * (a / (2 * PI)) = a := by field_simp
  have hnn : 0 ≤ a - 2 * PI * (⌊a / (2 * PI)⌋ : ℝ) := by
    have hfl : (⌊a / (2 * PI)⌋ : ℝ) ≤ a / (2 * PI) := Int.floor_le _
    nlinarith
  rw [if_neg (not_lt.mpr hnn)]

/-! ### Scalar form of the ball mapping -/

/-- The signed coefficient such that `angleToBallPoint axis u
= vec3Scale axis (ballCoef u)`: the wrapped angle, folded to the negative
side beyond `π` and snapped to `0` in the epsilon bands. -/
noncomputable def ballCoef (u : ℝ) : ℝ :=
  let theta := wrapTwoPi u
  if theta < EPSILON ∨ |theta - 2 * PI| < EPSILON then 0
  else if theta ≤ PI then theta
  else -(2 * PI - theta)

theorem angleToBallPoint_scale (axis : Vec3) (u : ℝ) :
    angleToBallPoint axis u = vec3Scale axis (ballCoef u) := by
  unfold angleToBallPoint ballCoef
  by_cases h1 : wrapTwoPi u < EPSILON ∨ |wrapTwoPi u - 2 * PI| < EPSILON
  · rw [if_pos h1, if_pos h1, vec3Scale_zero]
  · rw [if_neg h1, if_neg h1]
    by_cases h2 : wrapTwoPi u ≤ PI
    · rw [if_pos h2, if_pos h2]
    · rw [if_neg h2, if_neg h2, vec3Scale_neg]

theorem angleToBallPointGeneral_eq (axis : Vec3) (a : ℝ) (h : 0 ≤ a) :
    angleToBallPointGeneral axis a = angleToBallPoint axis a := by
  unfold angleToBallPointGeneral angleToBallPoint
  rw [jsMod_nonneg_eq a h]
  by_cases h1 : a < EPSILON
  · rw [if_pos h1]
    have hw : wrapTwoPi a = a := wrapTwoPi_id a h (by
      have := EPSILON_lt_PI
      have := PI_pos
      linarith)
    rw [if_pos (by rw [hw]; exact Or.inl h1)]
  · rw [if_neg h1]

/-- `ballCoef` stays in `[-π, π]`. -/
theorem abs_ballCoef_le (u : ℝ) : |ballCoef u| ≤ PI := by
  unfold ballCoef
  by_cases h1 : wrapTwoPi u < EPSILON ∨ |wrapTwoPi u - 2 * PI| < EPSILON
  · rw [if_pos h1]
    simpa using le_of_lt PI_pos
  · rw [if_neg h1]
    have hnn := wrapTwoPi_nonneg u
    have hlt := wrapTwoPi_lt u
    by_cases h2 : wrapTwoPi u ≤ PI
    · rw [if_pos h2, abs_of_nonneg hnn]; exact h2
    · rw [if_neg h2]
      push_neg at h2
      rw [abs_of_nonpos (by linarith)]
      linarith

/-! ### The rotation quaternion at a half-angle -/

/-- `Qang n φ` is the quaternion `(cos φ, sin φ · n)`; every quaternion a
loop lift produces has this shape. -/
noncomputable def Qang (n : Vec3) (phi : ℝ) : Quaternion :=
  ⟨Real.cos phi, Real.sin phi * n.x, Real.sin phi * n.y, Real.sin phi * n.z⟩

theorem Qang_zero (n : Vec3) : Qang n 0 = Quaternion.identity := by
  simp [Qang, Quaternion.identity]

theorem Qang_pi (n : Vec3) : Qang n PI = ⟨-1, 0, 0, 0⟩ := by
  simp [Qang, PI]

theorem Qang_two_pi (n : Vec3) : Qang n (2 * PI) = Quaternion.identity := by
  simp [Qang, PI, Quaternion.identity, Real.cos_two_pi, Real.sin_two_pi]

theorem Qang_negate (n : Vec3) (phi : ℝ) : (Qang n phi).negate = Qang n (phi + PI) := by
  simp only [Qang, Quaternion.negate, PI, Real.cos_add_pi, Real.sin_add_pi,
    Quaternion.mk.injEq]
  refine ⟨trivial, by ring, by ring, by ring⟩

theorem Qang_add_two_pi (n : Vec3) (phi : ℝ) : Qang n (phi + 2 * PI) = Qang n phi := by
  simp only [Qang, PI, Real.cos_add_two_pi, Real.sin_add_two_pi]

theorem Qang_negAxis (n : Vec3) (phi : ℝ) :
    Qang (vec3Negate n) phi = Qang n (2 * PI - phi) := by
  have hc : Real.cos (2 * Real.pi - phi) = Real.cos phi := by
    rw [show 2 * Real.pi - phi = -(phi - 2 * Real.pi) by ring, Real.cos_neg,
      Real.cos_sub_two_pi]
  have hs : Real.sin (2 * Real.pi - phi) = -Real.sin phi := by
    rw [show 2 * Real.pi - phi = -(phi - 2 * Real.pi) by ring, Real.sin_neg,
      Real.sin_sub_two_pi]
  simp only [Qang, vec3Negate, PI, hc, hs, Quaternion.mk.injEq]
  refine ⟨trivial, by ring, by ring, by ring⟩

theorem Qang_dot (n : Vec3) (h : n.x * n.x + n.y * n.y + n.z * n.z = 1) (a b : ℝ) :
    (Qang n a).dot (Qang n b) = Real.cos (a - b) := by
  unfold Quaternion.dot Qang
  rw [Real.cos_sub]
  linear_combination (Real.sin a * Real.sin b) * h

/-! ### Lifting machinery -/

theorem vec3Scale_scale (v : Vec3) (a b : ℝ) :
    vec3Scale (vec3Scale v a) b = vec3Scale v (a * b) := by
  simp only [vec3Scale, Vec3.mk.injEq]
  refine ⟨by ring, by ring, by ring⟩

theorem vec3Scale_one (v : Vec3) : vec3Scale v 1 = v := by
  simp [vec3Scale]

theorem fromAxisAngle_eq (axis : Vec3) (angle : ℝ) :
    Quaternion.fromAxisAngle axis angle = Qang (vec3Normalize axis) (angle / 2) := rfl

theorem fromSO3Point_zero : Quaternion.fromSO3Point ⟨0, 0, 0⟩ = Quaternion.identity := by
  unfold Quaternion.fromSO3Point
  rw [vec3Norm_zero]
  rw [if_pos EPSILON_pos]

theorem fromSO3Point_scale_unit {n : Vec3} (hn : vec3Norm n = 1) {c : ℝ}
    (hc : EPSILON ≤ c) :
    Quaternion.fromSO3Point (vec3Scale n c) = Qang n (c / 2) := by
  have hcpos : 0 < c := lt_of_lt_of_le EPSILON_pos hc
  unfold Quaternion.fromSO3Point
  rw [vec3Norm_scale, hn, mul_one, abs_of_pos hcpos]
  rw [if_neg (not_lt.mpr hc)]
  rw [vec3Scale_scale, mul_one_div, div_self (ne_of_gt hcpos), vec3Scale_one]
  rw [fromAxisAngle_eq, vec3Normalize_unit hn]

/-- The lift of the first point of a path: representative with `w ≥ 0`. -/
noncomputable def liftStart (p : Vec3) : Quaternion :=
  let q := Quaternion.fromSO3Point p
  if q.w < 0 then q.negate else q

theorem liftPath_cons (p : Vec3) (ps : List Vec3) :
    liftPath (p :: ps) = liftStart p :: liftFrom (liftStart p) ps := rfl

theorem liftFrom_cons (prev : Quaternion) (p : Vec3) (ps : List Vec3) :
    liftFrom prev (p :: ps) = liftStep prev p :: liftFrom (liftStep prev p) ps := rfl

theorem liftFrom_range' (f : ℕ → Quaternion) (g : ℕ → Vec3) :
    ∀ (m k : ℕ), (∀ j, j < m → liftStep (f (k + j)) (g (k + j + 1)) = f (k + j + 1)) →
    liftFrom (f k) ((List.range' (k + 1) m).map g) = (List.range' (k + 1) m).map f := by
  intro m
  induction m with
  | zero => intro k _; simp [liftFrom]
  | succ m ih =>
    intro k hstep
    rw [List.range'_succ]
    simp only [List.map_cons]
    have h0 : liftStep (f k) (g (k + 1)) = f (k + 1) := by
      have := hstep 0 (Nat.succ_pos m)
      simpa using this
    rw [liftFrom_cons]
    rw [h0]
    have ih2 := ih (k + 1) (fun j hj => by
      have h := hstep (j + 1) (Nat.succ_lt_succ hj)
      have e1 : k + (j + 1) = k + 1 + j := by omega
      rw [e1] at h
      exact h)
    rw [ih2]

theorem liftPath_map_range (f : ℕ → Quaternion) (g : ℕ → Vec3) (N : ℕ)
    (h0 : liftStart (g 0) = f 0)
    (hstep : ∀ j, j < N → liftStep (f j) (g (j + 1)) = f (j + 1)) :
    liftPath ((List.range (N + 1)).map g) = (List.range (N + 1)).map f := by
  have hr : List.range (N + 1) = 0 :: List.range' 1 N := by
    rw [List.range_eq_range']
    rw [List.range'_succ]
  rw [hr]
  simp only [List.map_cons]
  rw [liftPath_cons, h0]
  congr 1
  have := liftFrom_range' f g N 0 (by simpa using hstep)
  simpa using this

theorem getD_map_range {α : Type} (f : ℕ → α) {N i : ℕ} (hi : i < N) (d : α) :
    ((List.range N).map f).getD i d = f i := by
  rw [List.getD_eq_getElem?_getD, List.getElem?_map, List.getElem?_range hi]
  rfl

theorem length_map_range {α : Type} (f : ℕ → α) (N : ℕ) :
    ((List.range N).map f).length = N := by
  simp

/-! ### Dot product sign bookkeeping -/

theorem Quaternion.dot_comm (q r : Quaternion) : q.dot r = r.dot q := by
  unfold Quaternion.dot; ring

theorem Quaternion.dot_negate_left (q r : Quaternion) : (q.negate).dot r = -(q.dot r) := by
  unfold Quaternion.dot Quaternion.negate; ring

/-! ### Claim C10 -/

/-- C10: for every quaternion path with fewer than two entries and every
tolerance, `isLiftedPathClosed` returns true and `isLiftedPathAntipodal`
returns false. -/
theorem C10_degenerate_path (path : List Quaternion) (eps : ℝ)
    (h : path.length < 2) :
    isLiftedPathClosed path eps ∧ ¬ isLiftedPathAntipodal path eps := by
  constructor
  · unfold isLiftedPathClosed
    rw [if_pos h]
    trivial
  · unfold isLiftedPathAntipodal
    rw [if_pos h]
    exact not_false

theorem C10_degenerate_path_witness :
    ([] : List Quaternion).length < 2 ∧
      (isLiftedPathClosed [] 1 ∧ ¬ isLiftedPathAntipodal [] 1) :=
  ⟨by decide, C10_degenerate_path [] 1 (by decide)⟩

/-! ### Claim C7 -/

theorem vec3Norm_z_unit : vec3Norm (vec3 0 0 1) = 1 := by
  unfold vec3Norm vec3
  norm_num

/-- C7: for every unit axis and every integer `k`,
`fromAxisAngle(n, 2πk).w = (-1)^k` — the double-cover parity. -/
theorem C7_double_cover_parity (axis : Vec3) (h : vec3Norm axis = 1) (k : ℤ) :
    (Quaternion.fromAxisAngle axis (2 * PI * k)).w = (-1) ^ k := by
  show Real.cos (2 * PI * k / 2) = (-1) ^ k
  rw [show 2 * PI * (k:ℝ) / 2 = (k:ℝ) * Real.pi - 0 by unfold PI; ring]
  rw [Real.cos_int_mul_pi_sub 0 k]
  simp

theorem C7_double_cover_parity_witness :
    vec3Norm (vec3 0 0 1) = 1 ∧
      (Quaternion.fromAxisAngle (vec3 0 0 1) (2 * PI * (-3 : ℤ))).w = (-1) ^ (-3 : ℤ) :=
  ⟨vec3Norm_z_unit, C7_double_cover_parity (vec3 0 0 1) vec3Norm_z_unit (-3)⟩

/-! ### Claim C6 -/

theorem liftFrom_chain (ps : List Vec3) :
    ∀ (prev : Quaternion) (i : ℕ), i + 1 < (prev :: liftFrom prev ps).length →
      0 ≤ ((prev :: liftFrom prev ps).getD i Quaternion.identity).dot
          ((prev :: liftFrom prev ps).getD (i + 1) Quaternion.identity) := by
  induction ps with
  | nil =>
    intro prev i hi
    simp [liftFrom] at hi
  | cons p ps ih =>
    intro prev i hi
    show 0 ≤ ((prev :: liftFrom prev (p :: ps)).getD i Quaternion.identity).dot _
    have hexp : liftFrom prev (p :: ps) = liftStep prev p :: liftFrom (liftStep prev p) ps := rfl
    rw [hexp] at hi ⊢
    match i with
    | 0 =>
      simp only [List.getD_cons_zero, List.getD_cons_succ]
      unfold liftStep
      by_cases hd : (Quaternion.fromSO3Point p).dot prev < 0
      · rw [if_pos hd]
        rw [Quaternion.dot_comm, Quaternion.dot_negate_left]
        linarith
      · rw [if_neg hd]
        rw [Quaternion.dot_comm]
        exact not_lt.mp hd
    | Nat.succ j =>
      simp only [List.getD_cons_succ]
      apply ih (liftStep prev p) j
      simpa using hi

/-- C6: for every non-empty input list of ball points, the lifted path
starts at a quaternion with `w ≥ 0` and every pair of consecutive lifted
quaternions has non-negative dot product. -/
theorem C6_lift_invariants (ps : List Vec3) (h : ps ≠ []) :
    0 ≤ ((liftPath ps).getD 0 Quaternion.identity).w ∧
      ∀ i, i + 1 < (liftPath ps).length →
        0 ≤ ((liftPath ps).getD i Quaternion.identity).dot
            ((liftPath ps).getD (i + 1) Quaternion.identity) := by
  match ps with
  | [] => exact absurd rfl h
  | p :: ps =>
    rw [liftPath_cons]
    constructor
    · simp only [List.getD_cons_zero]
      unfold liftStart
      by_cases hw : (Quaternion.fromSO3Point p).w < 0
      · rw [if_pos hw]
        show 0 ≤ -(Quaternion.fromSO3Point p).w
        linarith
      · rw [if_neg hw]
        exact not_lt.mp hw
    · exact liftFrom_chain ps (liftStart p)

theorem C6_lift_invariants_witness :
    ([vec3 0 0 0] ≠ ([] : List Vec3)) ∧
      (0 ≤ ((liftPath [vec3 0 0 0]).getD 0 Quaternion.identity).w ∧
        ∀ i, i + 1 < (liftPath [vec3 0 0 0]).length →
          0 ≤ ((liftPath [vec3 0 0 0]).getD i Quaternion.identity).dot
              ((liftPath [vec3 0 0 0]).getD (i + 1) Quaternion.identity)) :=
  ⟨by simp, C6_lift_invariants [vec3 0 0 0] (by simp)⟩

/-! ### Claim C4 -/

theorem angleToBallPointGeneral_small (axis : Vec3) {a : ℝ} (h : a < EPSILON) :
    angleToBallPointGeneral axis a = vec3 0 0 0 := by
  unfold angleToBallPointGeneral vec3
  rw [if_pos h]

theorem contractedLoopPoints_getD (axis : Vec3) (s : ℝ) (N i : ℕ) (hi : i ≤ N) :
    (contractedLoopPoints axis s N).getD i (vec3 0 0 0) =
      angleToBallPointGeneral (vec3Normalize axis)
        (if (i : ℝ) / (N : ℝ) ≤ 1 / 2 then (1 - s) * 4 * PI * ((i : ℝ) / (N : ℝ))
         else (1 - s) * 4 * PI * (1 - (i : ℝ) / (N : ℝ))) := by
  unfold contractedLoopPoints
  exact getD_map_range _ (Nat.lt_succ_of_le hi) _

/-- C4: the contracted loop keeps its basepoint — first and last sample are
the origin for every `s ∈ [0, 1]` — and at `s = 1` every sample is the
origin. -/
theorem C4_basepoint_preserved (axis : Vec3) (s : ℝ) (N : ℕ)
    (hs0 : 0 ≤ s) (hs1 : s ≤ 1) (hN : 1 ≤ N) :
    (contractedLoopPoints axis s N).getD 0 (vec3 0 0 0) = vec3 0 0 0 ∧
    (contractedLoopPoints axis s N).getD N (vec3 0 0 0) = vec3 0 0 0 ∧
    (s = 1 → ∀ p ∈ contractedLoopPoints axis s N, p = vec3 0 0 0) := by
  refine ⟨?_, ?_, ?_⟩
  · rw [contractedLoopPoints_getD axis s N 0 (Nat.zero_le N)]
    have h0 : ((0 : ℕ) : ℝ) / (N : ℝ) = 0 := by simp
    rw [h0, if_pos (by norm_num : (0:ℝ) ≤ 1 / 2), mul_zero]
    exact angleToBallPointGeneral_small _ EPSILON_pos
  · rw [contractedLoopPoints_getD axis s N N (le_refl N)]
    have hNne : (N : ℝ) ≠ 0 := by
      exact_mod_cast Nat.pos_iff_ne_zero.mp hN
    have h1 : (N : ℝ) / (N : ℝ) = 1 := div_self hNne
    rw [h1, if_neg (by norm_num : ¬ ((1:ℝ) ≤ 1 / 2))]
    rw [show (1:ℝ) - 1 = 0 by ring, mul_zero]
    exact angleToBallPointGeneral_small _ EPSILON_pos
  · intro hs1eq p hp
    unfold contractedLoopPoints at hp
    rcases List.mem_map.mp hp with ⟨i, _, hfi⟩
    rw [← hfi, hs1eq]
    have hz : ∀ c : ℝ, (1 - 1) * 4 * PI * c = 0 := by intro c; ring
    dsimp only
    by_cases hc : (i : ℝ) / (N : ℝ) ≤ 1 / 2
    · rw [if_pos hc, hz]
      exact angleToBallPointGeneral_small _ EPSILON_pos
    · rw [if_neg hc, hz]
      exact angleToBallPointGeneral_small _ EPSILON_pos

theorem C4_basepoint_preserved_witness :
    ((0:ℝ) ≤ 1/2 ∧ (1/2:ℝ) ≤ 1 ∧ 1 ≤ 3) ∧
      ((contractedLoopPoints (vec3 1 0 0) (1/2) 3).getD 0 (vec3 0 0 0) = vec3 0 0 0 ∧
       (contractedLoopPoints (vec3 1 0 0) (1/2) 3).getD 3 (vec3 0 0 0) = vec3 0 0 0 ∧
       ((1/2 : ℝ) = 1 → ∀ p ∈ contractedLoopPoints (vec3 1 0 0) (1/2) 3, p = vec3 0 0 0)) :=
  ⟨⟨by norm_num, by norm_num, by norm_num⟩,
    C4_basepoint_preserved (vec3 1 0 0) (1/2) 3 (by norm_num) (by norm_num) (by norm_num)⟩

/-! ### Claim C9 -/

theorem generateLoop_points (axis : Vec3) (totalAngle : ℝ) (N : ℕ) :
    (generateLoop axis totalAngle N).points = (List.range (N + 1)).map
      (fun (i : ℕ) => angleToBallPoint (vec3Normalize axis)
        ((i : ℝ) / (N : ℝ) * totalAngle)) := rfl

theorem generateLoop_quaternions (axis : Vec3) (totalAngle : ℝ) (N : ℕ) :
    (generateLoop axis totalAngle N).quaternions = (List.range (N + 1)).map
      (fun (i : ℕ) => Quaternion.fromAxisAngle (vec3Normalize axis)
        ((i : ℝ) / (N : ℝ) * totalAngle)) := rfl

/-- C9: the stateless single-sample evaluators `getLoopPoint` and
`getLoopQuaternion` agree exactly with the batch `generateLoop` tracks at
`t = i/N`. -/
theorem C9_scrub_agrees (axis : Vec3) (totalAngle : ℝ) (N i : ℕ)
    (hN : 1 ≤ N) (hi : i ≤ N) :
    (generateLoop axis totalAngle N).points.getD i (vec3 0 0 0) =
      getLoopPoint axis totalAngle ((i : ℝ) / (N : ℝ)) ∧
    (generateLoop axis totalAngle N).quaternions.getD i Quaternion.identity =
      getLoopQuaternion axis totalAngle ((i : ℝ) / (N : ℝ)) := by
  constructor
  · rw [generateLoop_points, getD_map_range _ (Nat.lt_succ_of_le hi)]
    rfl
  · rw [generateLoop_quaternions, getD_map_range _ (Nat.lt_succ_of_le hi)]
    rfl

theorem C9_scrub_agrees_witness :
    (1 ≤ 2 ∧ 1 ≤ 2) ∧
      ((generateLoop (vec3 0 0 1) PI 2).points.getD 1 (vec3 0 0 0) =
        getLoopPoint (vec3 0 0 1) PI ((1 : ℝ) / (2 : ℝ)) ∧
       (generateLoop (vec3 0 0 1) PI 2).quaternions.getD 1 Quaternion.identity =
        getLoopQuaternion (vec3 0 0 1) PI ((1 : ℝ) / (2 : ℝ))) :=
  ⟨⟨by norm_num, by norm_num⟩,
    by
      have h := C9_scrub_agrees (vec3 0 0 1) PI 2 1 (by norm_num) (by norm_num)
      exact_mod_cast h⟩

/-! ### Claim C8 -/

theorem vec3Negate_negate (v : Vec3) : vec3Negate (vec3Negate v) = v := by
  simp [vec3Negate]

theorem isOnBoundary_negate (p : Vec3) (e : ℝ) :
    isOnBoundary (vec3Negate p) e ↔ isOnBoundary p e := by
  unfold isOnBoundary
  rw [vec3Norm_negate]

theorem canonicalize_def (p : Vec3) :
    canonicalize p =
      if ¬ isOnBoundary p (1 / 10 ^ 4) then p
      else if EPSILON < |p.x| then (if 0 < p.x then p else vec3Negate p)
      else if EPSILON < |p.y| then (if 0 < p.y then p else vec3Negate p)
      else if EPSILON < |p.z| then (if 0 < p.z then p else vec3Negate p)
      else p := rfl

theorem canonicalize_not_boundary {p : Vec3} (hb : ¬ isOnBoundary p (1 / 10 ^ 4)) :
    canonicalize p = p := by
  rw [canonicalize_def, if_pos hb]

theorem canonicalize_boundary {p : Vec3} (hb : isOnBoundary p (1 / 10 ^ 4)) :
    canonicalize p =
      (if EPSILON < |p.x| then (if 0 < p.x then p else vec3Negate p)
       else if EPSILON < |p.y| then (if 0 < p.y then p else vec3Negate p)
       else if EPSILON < |p.z| then (if 0 < p.z then p else vec3Negate p)
       else p) := by
  rw [canonicalize_def, if_neg (not_not_intro hb)]

theorem boundary_coords_not_all_small {p : Vec3} (hb : isOnBoundary p (1 / 10 ^ 4))
    (hx : ¬ EPSILON < |p.x|) (hy : ¬ EPSILON < |p.y|) (hz : ¬ EPSILON < |p.z|) :
    False := by
  unfold isOnBoundary at hb
  push_neg at hx hy hz
  have hnorm : vec3Norm p ≤ 1 := by
    unfold vec3Norm
    have hsum : p.x * p.x + p.y * p.y + p.z * p.z ≤ 1 := by
      have ex : p.x * p.x ≤ EPSILON * EPSILON := by
        nlinarith [abs_mul_abs_self p.x, abs_nonneg p.x, EPSILON_pos]
      have ey : p.y * p.y ≤ EPSILON * EPSILON := by
        nlinarith [abs_mul_abs_self p.y, abs_nonneg p.y, EPSILON_pos]
      have ez : p.z * p.z ≤ EPSILON * EPSILON := by
        nlinarith [abs_mul_abs_self p.z, abs_nonneg p.z, EPSILON_pos]
      have heps : EPSILON * EPSILON ≤ 1 / 3 := by
        unfold EPSILON; norm_num
      linarith
    calc Real.sqrt (p.x * p.x + p.y * p.y + p.z * p.z)
        ≤ Real.sqrt 1 := Real.sqrt_le_sqrt hsum
      _ = 1 := Real.sqrt_one
  rw [abs_lt] at hb
  have := PI_gt_three
  linarith [hb.1]

/-- C8: `canonicalize` is idempotent on all points, and on boundary points
(within the `1e-4` band of radius `π`) it identifies antipodal pairs:
`canonicalize p = canonicalize (-p)`. -/
theorem C8_canonicalize_props (p : Vec3) :
    canonicalize (canonicalize p) = canonicalize p ∧
      (isOnBoundary p (1 / 10 ^ 4) → canonicalize p = canonicalize (vec3Negate p)) := by
  have habs : ∀ q : Vec3, (vec3Negate q).x = -q.x ∧ (vec3Negate q).y = -q.y ∧
      (vec3Negate q).z = -q.z := fun q => ⟨rfl, rfl, rfl⟩
  constructor
  · by_cases hb : isOnBoundary p (1 / 10 ^ 4)
    · by_cases hx : EPSILON < |p.x|
      · by_cases hpx : 0 < p.x
        · have e : canonicalize p = p := by
            rw [canonicalize_boundary hb, if_pos hx, if_pos hpx]
          rw [e]; exact e
        · have e : canonicalize p = vec3Negate p := by
            rw [canonicalize_boundary hb, if_pos hx, if_neg hpx]
          rw [e]
          have hb2 : isOnBoundary (vec3Negate p) (1 / 10 ^ 4) :=
            (isOnBoundary_negate p _).mpr hb
          have hx2 : EPSILON < |(vec3Negate p).x| := by
            rw [(habs p).1, abs_neg]; exact hx
          have hpx2 : 0 < (vec3Negate p).x := by
            rw [(habs p).1]
            rw [abs_of_nonpos (not_lt.mp hpx)] at hx
            linarith [EPSILON_pos]
          rw [canonicalize_boundary hb2, if_pos hx2, if_pos hpx2]
      · by_cases hy : EPSILON < |p.y|
        · by_cases hpy : 0 < p.y
          · have e : canonicalize p = p := by
              rw [canonicalize_boundary hb, if_neg hx, if_pos hy, if_pos hpy]
            rw [e]; exact e
          · have e : canonicalize p = vec3Negate p := by
              rw [canonicalize_boundary hb, if_neg hx, if_pos hy, if_neg hpy]
            rw [e]
            have hb2 : isOnBoundary (vec3Negate p) (1 / 10 ^ 4) :=
              (isOnBoundary_negate p _).mpr hb
            have hx2 : ¬ EPSILON < |(vec3Negate p).x| := by
              rw [(habs p).1, abs_neg]; exact hx
            have hy2 : EPSILON < |(vec3Negate p).y| := by
              rw [(habs p).2.1, abs_neg]; exact hy
            have hpy2 : 0 < (vec3Negate p).y := by
              rw [(habs p).2.1]
              rw [abs_of_nonpos (not_lt.mp hpy)] at hy
              linarith [EPSILON_pos]
            rw [canonicalize_boundary hb2, if_neg hx2, if_pos hy2, if_pos hpy2]
        · by_cases hz : EPSILON < |p.z|
          · by_cases hpz : 0 < p.z
            · have e : canonicalize p = p := by
                rw [canonicalize_boundary hb, if_neg hx, if_neg hy, if_pos hz, if_pos hpz]
              rw [e]; exact e
            · have e : canonicalize p = vec3Negate p := by
                rw [canonicalize_boundary hb, if_neg hx, if_neg hy, if_pos hz, if_neg hpz]
              rw [e]
              have hb2 : isOnBoundary (vec3Negate p) (1 / 10 ^ 4) :=
                (isOnBoundary_negate p _).mpr hb
              have hx2 : ¬ EPSILON < |(vec3Negate p).x| := by
                rw [(habs p).1, abs_neg]; exact hx
              have hy2 : ¬ EPSILON < |(vec3Negate p).y| := by
                rw [(habs p).2.1, abs_neg]; exact hy
              have hz2 : EPSILON < |(vec3Negate p).z| := by
                rw [(habs p).2.2, abs_neg]; exact hz
              have hpz2 : 0 < (vec3Negate p).z := by
                rw [(habs p).2.2]
                rw [abs_of_nonpos (not_lt.mp hpz)] at hz
                linarith [EPSILON_pos]
              rw [canonicalize_boundary hb2, if_neg hx2, if_neg hy2, if_pos hz2, if_pos hpz2]
          · exact absurd trivial (fun _ => boundary_coords_not_all_small hb hx hy hz)
    · have e : canonicalize p = p := canonicalize_not_boundary hb
      rw [e]; exact e
  · intro hb
    have hb2 : isOnBoundary (vec3Negate p) (1 / 10 ^ 4) :=
      (isOnBoundary_negate p _).mpr hb
    by_cases hx : EPSILON < |p.x|
    · have hx2 : EPSILON < |(vec3Negate p).x| := by
        rw [(habs p).1, abs_neg]; exact hx
      by_cases hpx : 0 < p.x
      · have hpx2 : ¬ 0 < (vec3Negate p).x := by
          rw [(habs p).1]; linarith
        rw [canonicalize_boundary hb, if_pos hx, if_pos hpx]
        rw [canonicalize_boundary hb2, if_pos hx2, if_neg hpx2, vec3Negate_negate]
      · have hpx2 : 0 < (vec3Negate p).x := by
          rw [(habs p).1]
          rw [abs_of_nonpos (not_lt.mp hpx)] at hx
          linarith [EPSILON_pos]
        rw [canonicalize_boundary hb, if_pos hx, if_neg hpx]
        rw [canonicalize_boundary hb2, if_pos hx2, if_pos hpx2]
    · have hx2 : ¬ EPSILON < |(vec3Negate p).x| := by
        rw [(habs p).1, abs_neg]; exact hx
      by_cases hy : EPSILON < |p.y|
      · have hy2 : EPSILON < |(vec3Negate p).y| := by
          rw [(habs p).2.1, abs_neg]; exact hy
        by_cases hpy : 0 < p.y
        · have hpy2 : ¬ 0 < (vec3Negate p).y := by
            rw [(habs p).2.1]; linarith
          rw [canonicalize_boundary hb, if_neg hx, if_pos hy, if_pos hpy]
          rw [canonicalize_boundary hb2, if_neg hx2, if_pos hy2, if_neg hpy2,
            vec3Negate_negate]
        · have hpy2 : 0 < (vec3Negate p).y := by
            rw [(habs p).2.1]
            rw [abs_of_nonpos (not_lt.mp hpy)] at hy
            linarith [EPSILON_pos]
          rw [canonicalize_boundary hb, if_neg hx, if_pos hy, if_neg hpy]
          rw [canonicalize_boundary hb2, if_neg hx2, if_pos hy2, if_pos hpy2]
      · have hy2 : ¬ EPSILON < |(vec3Negate p).y| := by
          rw [(habs p).2.1, abs_neg]; exact hy
        by_cases hz : EPSILON < |p.z|
        · have hz2 : EPSILON < |(vec3Negate p).z| := by
            rw [(habs p).2.2, abs_neg]; exact hz
          by_cases hpz : 0 < p.z
          · have hpz2 : ¬ 0 < (vec3Negate p).z := by
              rw [(habs p).2.2]; linarith
            rw [canonicalize_boundary hb, if_neg hx, if_neg hy, if_pos hz, if_pos hpz]
            rw [canonicalize_boundary hb2, if_neg hx2, if_neg hy2, if_pos hz2,
              if_neg hpz2, vec3Negate_negate]
          · have hpz2 : 0 < (vec3Negate p).z := by
              rw [(habs p).2.2]
              rw [abs_of_nonpos (not_lt.mp hpz)] at hz
              linarith [EPSILON_pos]
            rw [canonicalize_boundary hb, if_neg hx, if_neg hy, if_pos hz, if_neg hpz]
            rw [canonicalize_boundary hb2, if_neg hx2, if_neg hy2, if_pos hz2, if_pos hpz2]
        · exact absurd trivial (fun _ => boundary_coords_not_all_small hb hx hy hz)

theorem vec3Norm_pix : vec3Norm (vec3 PI 0 0) = PI := by
  unfold vec3Norm vec3
  have h : PI * PI + 0 * 0 + 0 * 0 = PI * PI := by ring
  rw [h]
  exact Real.sqrt_mul_self (le_of_lt PI_pos)

theorem boundary_pix : isOnBoundary (vec3 PI 0 0) (1 / 10 ^ 4) := by
  unfold isOnBoundary
  rw [vec3Norm_pix, sub_self, abs_zero]
  norm_num

theorem C8_canonicalize_props_witness :
    isOnBoundary (vec3 PI 0 0) (1 / 10 ^ 4) ∧
      (canonicalize (canonicalize (vec3 PI 0 0)) = canonicalize (vec3 PI 0 0) ∧
        canonicalize (vec3 PI 0 0) = canonicalize (vec3Negate (vec3 PI 0 0))) :=
  ⟨boundary_pix,
    ⟨(C8_canonicalize_props (vec3 PI 0 0)).1,
      (C8_canonicalize_props (vec3 PI 0 0)).2 boundary_pix⟩⟩

/-! ### Evaluation lemmas for the ball coefficient -/

theorem ballCoef_band {u : ℝ}
    (h : wrapTwoPi u < EPSILON ∨ |wrapTwoPi u - 2 * PI| < EPSILON) :
    ballCoef u = 0 := by
  unfold ballCoef
  rw [if_pos h]

theorem ballCoef_low {u : ℝ} (h1 : EPSILON ≤ wrapTwoPi u) (h2 : wrapTwoPi u ≤ PI) :
    ballCoef u = wrapTwoPi u := by
  unfold ballCoef
  have hband : ¬ (wrapTwoPi u < EPSILON ∨ |wrapTwoPi u - 2 * PI| < EPSILON) := by
    push_neg
    refine ⟨not_lt.mp (not_lt.mpr h1), ?_⟩
    rw [abs_of_nonpos (by linarith [PI_pos])]
    have := EPSILON_lt_PI
    linarith
  rw [if_neg hband, if_pos h2]

theorem ballCoef_high {u : ℝ} (h1 : PI < wrapTwoPi u)
    (h2 : wrapTwoPi u ≤ 2 * PI - EPSILON) :
    ballCoef u = -(2 * PI - wrapTwoPi u) := by
  unfold ballCoef
  have hband : ¬ (wrapTwoPi u < EPSILON ∨ |wrapTwoPi u - 2 * PI| < EPSILON) := by
    push_neg
    constructor
    · have := EPSILON_lt_PI; linarith
    · rw [abs_of_nonpos (by linarith [wrapTwoPi_lt u])]
      linarith
  rw [if_neg hband, if_neg (not_le.mpr h1)]

/-! ### Claim C2: the mirror relation between the two halves -/

theorem vec3Negate_scale (v : Vec3) (c : ℝ) :
    vec3Negate (vec3Scale v c) = vec3Scale v (-c) := by
  simp only [vec3Negate, vec3Scale, Vec3.mk.injEq]
  refine ⟨by ring, by ring, by ring⟩

theorem wrapTwoPi_four_pi : wrapTwoPi (4 * PI) = 0 := by
  have h := wrapTwoPi_eq_sub (4 * PI) 2 (by push_cast; linarith [PI_pos])
    (by push_cast; linarith [PI_pos])
  rw [h]
  push_cast
  ring

theorem wrapTwoPi_high_period {u : ℝ} (h1 : 2 * PI ≤ u) (h2 : u < 4 * PI) :
    wrapTwoPi u = u - 2 * PI := by
  have h := wrapTwoPi_eq_sub u 1 (by push_cast; linarith) (by push_cast; linarith)
  rw [h]
  push_cast
  ring

/-- Mirror identity behind the corrected C2: away from the exact midpoint
angle `3π`, the return half of the contracted loop at `s = 0` lands on the
negation of the corresponding 4π-loop sample. -/
theorem ballCoef_mirror {u : ℝ} (h1 : 2 * PI < u) (h2 : u ≤ 4 * PI)
    (hne : u ≠ 3 * PI) :
    ballCoef (4 * PI - u) = -(ballCoef u) := by
  have hEP := EPSILON_lt_PI
  have hPI := PI_pos
  by_cases hu4 : u = 4 * PI
  · rw [hu4]
    rw [show 4 * PI - 4 * PI = 0 by ring]
    have hz : ballCoef 0 = 0 :=
      ballCoef_band (Or.inl (by rw [wrapTwoPi_id 0 (le_refl 0) (by linarith)]; exact EPSILON_pos))
    have hz4 : ballCoef (4 * PI) = 0 :=
      ballCoef_band (Or.inl (by rw [wrapTwoPi_four_pi]; exact EPSILON_pos))
    rw [hz, hz4]
    ring
  · have hu4' : u < 4 * PI := lt_of_le_of_ne h2 hu4
    set b := 4 * PI - u with hb
    have hb0 : 0 < b := by rw [hb]; linarith
    have hb2 : b < 2 * PI := by rw [hb]; linarith
    have hwb : wrapTwoPi b = b := wrapTwoPi_id b (le_of_lt hb0) hb2
    have hwu : wrapTwoPi u = 2 * PI - b := by
      rw [wrapTwoPi_high_period (le_of_lt h1) hu4', hb]
      ring
    have hbne : b ≠ PI := by
      intro hcon
      apply hne
      rw [hb] at hcon
      linarith
    by_cases hc1 : b < EPSILON
    · have e1 : ballCoef b = 0 := ballCoef_band (Or.inl (by rw [hwb]; exact hc1))
      have e2 : ballCoef u = 0 := ballCoef_band (Or.inr (by
        rw [hwu, abs_of_nonpos (by linarith)]
        linarith))
      rw [e1, e2]
      ring
    · push_neg at hc1
      by_cases hc2 : b < PI
      · have e1 : ballCoef b = b := by rw [ballCoef_low (by rw [hwb]; exact hc1)
          (by rw [hwb]; linarith), hwb]
        have e2 : ballCoef u = -(b) := by
          rw [ballCoef_high (by rw [hwu]; linarith) (by rw [hwu]; linarith), hwu]
          ring
        rw [e1, e2]
        ring
      · push_neg at hc2
        have hc2' : PI < b := lt_of_le_of_ne hc2 (Ne.symm hbne)
        by_cases hc3 : b ≤ 2 * PI - EPSILON
        · have e1 : ballCoef b = -(2 * PI - b) := by
            rw [ballCoef_high (by rw [hwb]; exact hc2') (by rw [hwb]; exact hc3), hwb]
          have e2 : ballCoef u = 2 * PI - b := by
            rw [ballCoef_low (by rw [hwu]; linarith) (by rw [hwu]; linarith), hwu]
          rw [e1, e2]
        · push_neg at hc3
          have e1 : ballCoef b = 0 := ballCoef_band (Or.inr (by
            rw [hwb, abs_of_nonpos (by linarith)]
            linarith))
          have e2 : ballCoef u = 0 := ballCoef_band (Or.inl (by rw [hwu]; linarith))
          rw [e1, e2]
          ring

theorem half_le_iff (N i : ℕ) (hN : 1 ≤ N) :
    ((i : ℝ) / (N : ℝ) ≤ 1 / 2) ↔ 2 * i ≤ N := by
  have hNpos : (0:ℝ) < N := by exact_mod_cast hN
  rw [div_le_div_iff hNpos (by norm_num : (0:ℝ) < 2)]
  constructor
  · intro h
    have h2 : ((2 * i : ℕ) : ℝ) ≤ (N : ℝ) := by push_cast; linarith
    exact_mod_cast h2
  · intro h
    have h2 : ((2 * i : ℕ) : ℝ) ≤ (N : ℝ) := by exact_mod_cast h
    push_cast at h2
    linarith

/-- Corrected C2: at `s = 0` the contracted loop agrees with the sampled
4π loop on the outbound half `2i ≤ N` (and at the exact boundary-touch
index `4i = 3N`), and is the pointwise negation on the rest of the return
half. -/
theorem C2_amended_mirror (axis : Vec3) (N i : ℕ) (hN : 1 ≤ N) (hi : i ≤ N) :
    (2 * i ≤ N →
      (contractedLoopPoints axis 0 N).getD i (vec3 0 0 0) =
        (generateLoop axis (4 * PI) N).points.getD i (vec3 0 0 0)) ∧
    (4 * i = 3 * N →
      (contractedLoopPoints axis 0 N).getD i (vec3 0 0 0) =
        (generateLoop axis (4 * PI) N).points.getD i (vec3 0 0 0)) ∧
    (N < 2 * i → 4 * i ≠ 3 * N →
      (contractedLoopPoints axis 0 N).getD i (vec3 0 0 0) =
        vec3Negate ((generateLoop axis (4 * PI) N).points.getD i (vec3 0 0 0))) := by
  have hNpos : (0:ℝ) < N := by exact_mod_cast hN
  have hc := contractedLoopPoints_getD axis 0 N i hi
  have hg : (generateLoop axis (4 * PI) N).points.getD i (vec3 0 0 0) =
      angleToBallPoint (vec3Normalize axis) ((i : ℝ) / (N : ℝ) * (4 * PI)) := by
    rw [generateLoop_points, getD_map_range _ (Nat.lt_succ_of_le hi)]
  have ht0 : 0 ≤ (i : ℝ) / (N : ℝ) := by positivity
  have ht1 : (i : ℝ) / (N : ℝ) ≤ 1 := by
    rw [div_le_one hNpos]
    exact_mod_cast hi
  refine ⟨?_, ?_, ?_⟩
  · intro h2i
    rw [hc, if_pos ((half_le_iff N i hN).mpr h2i)]
    rw [angleToBallPointGeneral_eq _ _ (by nlinarith [PI_pos, ht0])]
    rw [hg]
    congr 1
    ring
  · intro h34
    have ht : (i : ℝ) / (N : ℝ) = 3 / 4 := by
      have h34r : (4 : ℝ) * i = 3 * N := by exact_mod_cast h34
      field_simp
      linarith
    have hnot : ¬ ((i : ℝ) / (N : ℝ) ≤ 1 / 2) := by rw [ht]; norm_num
    rw [hc, if_neg hnot, ht, hg, ht]
    have ha : (1 - 0) * 4 * PI * (1 - 3 / 4) = PI := by ring
    have hu : (3:ℝ) / 4 * (4 * PI) = 3 * PI := by ring
    rw [ha, hu]
    rw [angleToBallPointGeneral_eq _ _ (le_of_lt PI_pos)]
    rw [angleToBallPoint_scale, angleToBallPoint_scale]
    have hwPI : wrapTwoPi PI = PI := wrapTwoPi_id PI (le_of_lt PI_pos) (by linarith [PI_pos])
    have e1 : ballCoef PI = PI := by
      rw [ballCoef_low (by rw [hwPI]; exact le_of_lt EPSILON_lt_PI) (le_of_eq hwPI), hwPI]
    have e2 : ballCoef (3 * PI) = PI := by
      have hw : wrapTwoPi (3 * PI) = PI := by
        rw [wrapTwoPi_high_period (by linarith [PI_pos]) (by linarith [PI_pos])]
        ring
      rw [ballCoef_low (by rw [hw]; exact le_of_lt EPSILON_lt_PI) (by rw [hw]), hw]
    rw [e1, e2]
  · intro h2i hne34
    have hnot : ¬ ((i : ℝ) / (N : ℝ) ≤ 1 / 2) := by
      rw [half_le_iff N i hN]
      omega
    set u := (i : ℝ) / (N : ℝ) * (4 * PI) with hudef
    have hu1 : 2 * PI < u := by
      rw [hudef]
      have : (1:ℝ) / 2 < (i : ℝ) / (N : ℝ) := lt_of_not_le hnot
      nlinarith [PI_pos]
    have hu2 : u ≤ 4 * PI := by
      rw [hudef]
      nlinarith [PI_pos]
    have hune : u ≠ 3 * PI := by
      rw [hudef]
      intro hcon
      apply hne34
      have hN0 : (N:ℝ) ≠ 0 := ne_of_gt hNpos
      have hcanc : (4 * (i:ℝ)) * PI = (3 * (N:ℝ)) * PI := by
        field_simp at hcon
        linarith [hcon]
      have h43 : (4 * (i:ℝ)) = 3 * (N:ℝ) :=
        mul_right_cancel₀ (ne_of_gt PI_pos) hcanc
      exact_mod_cast h43
    rw [hc, if_neg hnot]
    have ha : (1 - 0) * 4 * PI * (1 - (i : ℝ) / (N : ℝ)) = 4 * PI - u := by
      rw [hudef]; ring
    rw [ha]
    rw [angleToBallPointGeneral_eq _ _ (by rw [hudef]; nlinarith [PI_pos])]
    rw [hg, angleToBallPoint_scale, angleToBallPoint_scale, vec3Negate_scale]
    rw [ballCoef_mirror hu1 hu2 hune]

theorem C2_amended_mirror_witness :
    (1 ≤ 2 ∧ 1 ≤ 2) ∧
      ((2 * 1 ≤ 2 →
        (contractedLoopPoints (vec3 0 0 1) 0 2).getD 1 (vec3 0 0 0) =
          (generateLoop (vec3 0 0 1) (4 * PI) 2).points.getD 1 (vec3 0 0 0)) ∧
      (4 * 1 = 3 * 2 →
        (contractedLoopPoints (vec3 0 0 1) 0 2).getD 1 (vec3 0 0 0) =
          (generateLoop (vec3 0 0 1) (4 * PI) 2).points.getD 1 (vec3 0 0 0)) ∧
      (2 < 2 * 1 → 4 * 1 ≠ 3 * 2 →
        (contractedLoopPoints (vec3 0 0 1) 0 2).getD 1 (vec3 0 0 0) =
          vec3Negate ((generateLoop (vec3 0 0 1) (4 * PI) 2).points.getD 1 (vec3 0 0 0)))) :=
  ⟨⟨by norm_num, by norm_num⟩, C2_amended_mirror (vec3 0 0 1) 2 1 (by norm_num) (by norm_num)⟩

/-- Counterexample to C2 as stated: with the z axis, `N = 3`, index
`i = 2`, the contracted sample at `s = 0` is `(0,0,-2π/3)` while the 4π
loop sample is `(0,0,2π/3)`; they are `4π/3` apart, far beyond tolerance. -/
theorem C2_counterexample :
    vec3Norm (vec3 0 0 1) = 1 ∧ (2:ℕ) ≤ 3 ∧
      ¬ (vec3Norm (vec3Sub ((contractedLoopPoints (vec3 0 0 1) 0 3).getD 2 (vec3 0 0 0))
          ((generateLoop (vec3 0 0 1) (4 * PI) 3).points.getD 2 (vec3 0 0 0))) < 1 / 10 ^ 4) := by
  have hPI := PI_pos
  have hEP := EPSILON_lt_PI
  refine ⟨vec3Norm_z_unit, by norm_num, ?_⟩
  have hnz : vec3Normalize (vec3 0 0 1) = vec3 0 0 1 := vec3Normalize_unit vec3Norm_z_unit
  have hc := contractedLoopPoints_getD (vec3 0 0 1) 0 3 2 (by norm_num)
  have hnot : ¬ (((2:ℕ) : ℝ) / ((3:ℕ) : ℝ) ≤ 1 / 2) := by norm_num
  rw [if_neg hnot] at hc
  have ha : (1 - 0) * 4 * PI * (1 - ((2:ℕ) : ℝ) / ((3:ℕ) : ℝ)) = 4 * PI / 3 := by
    push_cast
    ring
  rw [ha] at hc
  have hcv : (contractedLoopPoints (vec3 0 0 1) 0 3).getD 2 (vec3 0 0 0) =
      vec3Scale (vec3 0 0 1) (-(2 * PI / 3)) := by
    rw [hc, hnz, angleToBallPointGeneral_eq _ _ (by linarith), angleToBallPoint_scale]
    have hw : wrapTwoPi (4 * PI / 3) = 4 * PI / 3 :=
      wrapTwoPi_id _ (by linarith) (by linarith)
    have he : ballCoef (4 * PI / 3) = -(2 * PI - 4 * PI / 3) := by
      rw [ballCoef_high (by rw [hw]; linarith)
        (by rw [hw]; linarith [EPSILON_lt_one, PI_gt_three]), hw]
    rw [he]
    congr 1
    ring
  have hgv : (generateLoop (vec3 0 0 1) (4 * PI) 3).points.getD 2 (vec3 0 0 0) =
      vec3Scale (vec3 0 0 1) (2 * PI / 3) := by
    rw [generateLoop_points, getD_map_range _ (by norm_num : (2:ℕ) < 3 + 1), hnz]
    rw [angleToBallPoint_scale]
    have hu : ((2:ℕ) : ℝ) / ((3:ℕ) : ℝ) * (4 * PI) = 8 * PI / 3 := by
      push_cast
      ring
    rw [hu]
    have hw : wrapTwoPi (8 * PI / 3) = 2 * PI / 3 := by
      rw [wrapTwoPi_high_period (by linarith) (by linarith)]
      ring
    have he : ballCoef (8 * PI / 3) = 2 * PI / 3 := by
      rw [ballCoef_low (by rw [hw]; linarith [EPSILON_lt_one, PI_gt_three])
        (by rw [hw]; linarith), hw]
    rw [he]
  rw [hcv, hgv]
  have hsub : vec3Sub (vec3Scale (vec3 0 0 1) (-(2 * PI / 3)))
      (vec3Scale (vec3 0 0 1) (2 * PI / 3)) = vec3 0 0 (-(4 * PI / 3)) := by
    simp only [vec3Sub, vec3Scale, vec3, Vec3.mk.injEq]
    refine ⟨by ring, by ring, by ring⟩
  rw [hsub]
  have hn : vec3Norm (vec3 0 0 (-(4 * PI / 3))) = 4 * PI / 3 := by
    unfold vec3Norm vec3
    rw [show (0:ℝ) * 0 + 0 * 0 + -(4 * PI / 3) * -(4 * PI / 3) = (4 * PI / 3) * (4 * PI / 3) by ring]
    exact Real.sqrt_mul_self (by linarith)
  rw [hn]
  push_neg
  linarith [PI_gt_three]

/-! ### Claim C5 -/

theorem norm_General_low (axis : Vec3) {a : ℝ} (h0 : 0 ≤ a) (h1 : a ≤ PI) :
    vec3Norm (angleToBallPointGeneral (vec3Normalize axis) a) =
      (if a < EPSILON then 0 else a) := by
  have hPI := PI_pos
  have hw : wrapTwoPi a = a := wrapTwoPi_id a h0 (by linarith)
  rw [angleToBallPointGeneral_eq _ _ h0, angleToBallPoint_scale, vec3Norm_scale,
    vec3Norm_normalize, mul_one]
  by_cases hb : a < EPSILON
  · rw [if_pos hb, ballCoef_band (Or.inl (by rw [hw]; exact hb)), abs_zero]
  · push_neg at hb
    rw [if_neg (not_lt.mpr hb)]
    rw [ballCoef_low (by rw [hw]; exact hb) (by rw [hw]; exact h1), hw]
    exact abs_of_nonneg h0

theorem clampNorm_mono {a b : ℝ} (hab : a ≤ b) (h0 : 0 ≤ a) :
    (if a < EPSILON then 0 else a) ≤ (if b < EPSILON then 0 else b) := by
  by_cases hb : b < EPSILON
  · rw [if_pos hb, if_pos (lt_of_le_of_lt hab hb)]
  · rw [if_neg hb]
    by_cases ha : a < EPSILON
    · rw [if_pos ha]
      exact le_trans h0 hab
    · rw [if_neg ha]
      exact hab

theorem foldr_max_mono : ∀ {l1 l2 : List ℝ}, List.Forall₂ (· ≤ ·) l1 l2 →
    l1.foldr max 0 ≤ l2.foldr max 0 := by
  intro l1 l2 h
  induction h with
  | nil => exact le_refl 0
  | @cons a b l1 l2 hab _ ih =>
    show max a (l1.foldr max 0) ≤ max b (l2.foldr max 0)
    exact max_le_max hab ih

theorem forall2_map_range (f g : ℕ → ℝ) (M : ℕ) (h : ∀ i, i < M → f i ≤ g i) :
    List.Forall₂ (· ≤ ·) ((List.range M).map f) ((List.range M).map g) := by
  have hgen : ∀ (l : List ℕ), (∀ x ∈ l, f x ≤ g x) →
      List.Forall₂ (· ≤ ·) (l.map f) (l.map g) := by
    intro l
    induction l with
    | nil => intro _; exact List.Forall₂.nil
    | cons a l ih =>
      intro hl
      exact List.Forall₂.cons (hl a (List.mem_cons_self a l))
        (ih fun x hx => hl x (List.mem_cons_of_mem a hx))
  exact hgen _ (fun x hx => h x (List.mem_range.mp hx))

theorem excursion_bounds {s s2 m : ℝ} (h1 : 1 / 2 ≤ s) (h2 : s ≤ s2) (h3 : s2 ≤ 1)
    (hm0 : 0 ≤ m) (hm2 : m ≤ 1 / 2) :
    0 ≤ (1 - s2) * 4 * PI * m ∧
    (1 - s2) * 4 * PI * m ≤ (1 - s) * 4 * PI * m ∧
    (1 - s) * 4 * PI * m ≤ PI := by
  have hPI := PI_pos
  have hA2 : 0 ≤ 1 - s2 := by linarith
  have hA : 0 ≤ 1 - s := by linarith
  refine ⟨?_, ?_, ?_⟩
  · exact mul_nonneg (mul_nonneg (mul_nonneg hA2 (by norm_num)) (le_of_lt hPI)) hm0
  · have hd : 0 ≤ (s2 - s) * PI := mul_nonneg (by linarith) (le_of_lt hPI)
    have hfac : (1 - s2) * 4 * PI ≤ (1 - s) * 4 * PI := by linarith [hd]
    exact mul_le_mul_of_nonneg_right hfac hm0
  · have hAm : (1 - s) * m ≤ 1 / 4 := by
      have := mul_le_mul (by linarith : 1 - s ≤ 1 / 2) hm2 hm0 (by norm_num : (0:ℝ) ≤ 1 / 2)
      linarith
    nlinarith [mul_le_mul_of_nonneg_left hAm (le_of_lt hPI)]

/-- Corrected C5: once the contraction has pulled the excursion inside the
ball (`s ≥ 1/2`, maximum excursion angle `(1-s)·2π ≤ π`), the maximum
point norm of `contractedLoopPoints` is non-increasing in `s`. -/
theorem C5_amended_mono (axis : Vec3) (s s2 : ℝ) (N : ℕ)
    (h1 : 1 / 2 ≤ s) (h2 : s ≤ s2) (h3 : s2 ≤ 1) :
    contractedMaxNorm axis s2 N ≤ contractedMaxNorm axis s N := by
  have hPI := PI_pos
  unfold contractedMaxNorm contractedLoopPoints
  rw [List.map_map, List.map_map]
  apply foldr_max_mono
  apply forall2_map_range
  intro i hi
  have hile : i ≤ N := Nat.lt_succ_iff.mp hi
  have ht0 : 0 ≤ (i : ℝ) / (N : ℝ) := by positivity
  have ht1 : (i : ℝ) / (N : ℝ) ≤ 1 := by
    by_cases hN0 : N = 0
    · subst hN0
      norm_num
    · rw [div_le_one (by exact_mod_cast Nat.pos_of_ne_zero hN0)]
      exact_mod_cast hile
  simp only [Function.comp]
  by_cases hc : (i : ℝ) / (N : ℝ) ≤ 1 / 2
  · rw [if_pos hc, if_pos hc]
    obtain ⟨ha0, ha1, ha2⟩ := excursion_bounds h1 h2 h3 ht0 hc
    rw [norm_General_low axis ha0 (le_trans ha1 ha2),
      norm_General_low axis (by linarith) ha2]
    exact clampNorm_mono ha1 ha0
  · rw [if_neg hc, if_neg hc]
    push_neg at hc
    have hm0 : 0 ≤ 1 - (i : ℝ) / (N : ℝ) := by linarith
    have hm2 : 1 - (i : ℝ) / (N : ℝ) ≤ 1 / 2 := by linarith
    obtain ⟨ha0, ha1, ha2⟩ := excursion_bounds h1 h2 h3 hm0 hm2
    rw [norm_General_low axis ha0 (le_trans ha1 ha2),
      norm_General_low axis (by linarith) ha2]
    exact clampNorm_mono ha1 ha0

theorem C5_amended_mono_witness :
    ((1:ℝ) / 2 ≤ 1 / 2 ∧ (1/2:ℝ) ≤ 3 / 4 ∧ (3/4:ℝ) ≤ 1) ∧
      contractedMaxNorm (vec3 0 0 1) (3 / 4) 2 ≤ contractedMaxNorm (vec3 0 0 1) (1 / 2) 2 :=
  ⟨⟨by norm_num, by norm_num, by norm_num⟩,
    C5_amended_mono (vec3 0 0 1) (1 / 2) (3 / 4) 2 (by norm_num) (by norm_num) (by norm_num)⟩

theorem contractedMaxNorm_two (axis : Vec3) (s : ℝ) :
    contractedMaxNorm axis s 2 =
      max (vec3Norm (angleToBallPointGeneral (vec3Normalize axis)
        (if ((0:ℕ) : ℝ) / ((2:ℕ) : ℝ) ≤ 1 / 2 then (1 - s) * 4 * PI * (((0:ℕ) : ℝ) / ((2:ℕ) : ℝ))
         else (1 - s) * 4 * PI * (1 - ((0:ℕ) : ℝ) / ((2:ℕ) : ℝ)))))
      (max (vec3Norm (angleToBallPointGeneral (vec3Normalize axis)
        (if ((1:ℕ) : ℝ) / ((2:ℕ) : ℝ) ≤ 1 / 2 then (1 - s) * 4 * PI * (((1:ℕ) : ℝ) / ((2:ℕ) : ℝ))
         else (1 - s) * 4 * PI * (1 - ((1:ℕ) : ℝ) / ((2:ℕ) : ℝ)))))
      (max (vec3Norm (angleToBallPointGeneral (vec3Normalize axis)
        (if ((2:ℕ) : ℝ) / ((2:ℕ) : ℝ) ≤ 1 / 2 then (1 - s) * 4 * PI * (((2:ℕ) : ℝ) / ((2:ℕ) : ℝ))
         else (1 - s) * 4 * PI * (1 - ((2:ℕ) : ℝ) / ((2:ℕ) : ℝ)))))
      0)) := rfl

/-- Counterexample to C5 as stated: with the z axis and `N = 2`, the
maximum point norm at `s = 1/4` is `π/2` but at `s = 1/2` it is `π`: the
maximum grows as `s` increases from `1/4` to `1/2`. -/
theorem C5_counterexample :
    (0:ℝ) ≤ 1 / 4 ∧ (1/4:ℝ) ≤ 1 / 2 ∧ (1/2:ℝ) ≤ 1 ∧ vec3Norm (vec3 0 0 1) = 1 ∧
      ¬ (contractedMaxNorm (vec3 0 0 1) (1 / 2) 2 ≤ contractedMaxNorm (vec3 0 0 1) (1 / 4) 2) := by
  have hPI := PI_pos
  have hP3 := PI_gt_three
  have hE1 := EPSILON_lt_one
  refine ⟨by norm_num, by norm_num, by norm_num, vec3Norm_z_unit, ?_⟩
  have hc0 : ((0:ℕ) : ℝ) / ((2:ℕ) : ℝ) ≤ 1 / 2 := by norm_num
  have hc1 : ((1:ℕ) : ℝ) / ((2:ℕ) : ℝ) ≤ 1 / 2 := by norm_num
  have hc2 : ¬ (((2:ℕ) : ℝ) / ((2:ℕ) : ℝ) ≤ 1 / 2) := by norm_num
  have hz0 : ∀ s : ℝ, (1 - s) * 4 * PI * (((0:ℕ) : ℝ) / ((2:ℕ) : ℝ)) = 0 := by
    intro s; norm_num
  have hz2 : ∀ s : ℝ, (1 - s) * 4 * PI * (1 - ((2:ℕ) : ℝ) / ((2:ℕ) : ℝ)) = 0 := by
    intro s; norm_num
  have hn0 : vec3Norm (angleToBallPointGeneral (vec3Normalize (vec3 0 0 1)) 0) = 0 := by
    rw [norm_General_low _ (le_refl 0) (le_of_lt hPI), if_pos EPSILON_pos]
  -- value at s = 1/2, index 1: angle π, norm π
  have ha1h : (1 - (1:ℝ)/2) * 4 * PI * (((1:ℕ) : ℝ) / ((2:ℕ) : ℝ)) = PI := by
    push_cast; ring
  have hn1h : vec3Norm (angleToBallPointGeneral (vec3Normalize (vec3 0 0 1)) PI) = PI := by
    rw [norm_General_low _ (le_of_lt hPI) (le_refl PI), if_neg (not_lt.mpr (le_of_lt EPSILON_lt_PI))]
  -- value at s = 1/4, index 1: angle 3π/2, norm π/2
  have ha1q : (1 - (1:ℝ)/4) * 4 * PI * (((1:ℕ) : ℝ) / ((2:ℕ) : ℝ)) = 3 * PI / 2 := by
    push_cast; ring
  have hn1q : vec3Norm (angleToBallPointGeneral (vec3Normalize (vec3 0 0 1)) (3 * PI / 2))
      = PI / 2 := by
    have hw : wrapTwoPi (3 * PI / 2) = 3 * PI / 2 := wrapTwoPi_id _ (by linarith) (by linarith)
    rw [angleToBallPointGeneral_eq _ _ (by linarith), angleToBallPoint_scale, vec3Norm_scale,
      vec3Norm_normalize, mul_one]
    rw [ballCoef_high (by rw [hw]; linarith) (by rw [hw]; linarith), hw]
    rw [show -(2 * PI - 3 * PI / 2) = -(PI / 2) by ring, abs_neg, abs_of_pos (by linarith)]
  rw [contractedMaxNorm_two, contractedMaxNorm_two]
  rw [if_pos hc0, if_pos hc0, if_pos hc1, if_pos hc1, if_neg hc2, if_neg hc2]
  rw [hz0, hz0, hz2, hz2, ha1h, ha1q, hn0, hn1h, hn1q]
  have e1 : max (0:ℝ) (max PI (max 0 0)) = PI := by
    rw [max_self, max_eq_left (le_of_lt hPI), max_eq_right (le_of_lt hPI)]
  have e2 : max (0:ℝ) (max (PI / 2) (max 0 0)) = PI / 2 := by
    rw [max_self, max_eq_left (by linarith : (0:ℝ) ≤ PI / 2),
      max_eq_right (by linarith : (0:ℝ) ≤ PI / 2)]
  rw [e1, e2]
  push_neg
  linarith

/-! ### Claim C1: exact description of the lifted loop -/

theorem Quaternion.negate_negate (q : Quaternion) : q.negate.negate = q := by
  simp [Quaternion.negate]

theorem wrapTwoPi_two_pi : wrapTwoPi (2 * PI) = 0 := by
  have h := wrapTwoPi_eq_sub (2 * PI) 1 (by push_cast; linarith [PI_pos])
    (by push_cast; linarith [PI_pos])
  rw [h]
  push_cast
  ring

theorem cos_nonneg_Icc {x : ℝ} (h1 : -(PI / 2) ≤ x) (h2 : x ≤ PI / 2) : 0 ≤ Real.cos x :=
  Real.cos_nonneg_of_mem_Icc ⟨h1, h2⟩

theorem cos_pos_Ioo {x : ℝ} (h1 : -(PI / 2) < x) (h2 : x < PI / 2) : 0 < Real.cos x :=
  Real.cos_pos_of_mem_Ioo ⟨h1, h2⟩

theorem cos_neg_mid {x : ℝ} (h1 : PI / 2 < x) (h2 : x < PI + PI / 2) : Real.cos x < 0 :=
  Real.cos_neg_of_pi_div_two_lt_of_lt h1 h2

theorem cosPI_add (x : ℝ) : Real.cos (x + PI) = -Real.cos x := Real.cos_add_pi x

theorem cosPI_sub_two_pi (x : ℝ) : Real.cos (x - 2 * PI) = Real.cos x := Real.cos_sub_two_pi x

theorem cosPI_pi_sub (x : ℝ) : Real.cos (PI - x) = -Real.cos x := Real.cos_pi_sub x

/-- Value of `fromSO3Point ∘ angleToBallPoint` in the snap band. -/
theorem raw_band {n : Vec3} {u : ℝ}
    (h : wrapTwoPi u < EPSILON ∨ |wrapTwoPi u - 2 * PI| < EPSILON) :
    Quaternion.fromSO3Point (angleToBallPoint n u) = Quaternion.identity := by
  rw [angleToBallPoint_scale, ballCoef_band h, vec3Scale_zero, fromSO3Point_zero]

/-- Value of `fromSO3Point ∘ angleToBallPoint` on the near hemisphere. -/
theorem raw_low {n : Vec3} (hn : vec3Norm n = 1) {u : ℝ}
    (h1 : EPSILON ≤ wrapTwoPi u) (h2 : wrapTwoPi u ≤ PI) :
    Quaternion.fromSO3Point (angleToBallPoint n u) = Qang n (wrapTwoPi u / 2) := by
  rw [angleToBallPoint_scale, ballCoef_low h1 h2]
  exact fromSO3Point_scale_unit hn h1

/-- Value of `fromSO3Point ∘ angleToBallPoint` on the far hemisphere:
the raw conversion lands on the opposite sheet. -/
theorem raw_high {n : Vec3} (hn : vec3Norm n = 1) {u : ℝ}
    (h1 : PI < wrapTwoPi u) (h2 : wrapTwoPi u ≤ 2 * PI - EPSILON) :
    Quaternion.fromSO3Point (angleToBallPoint n u) = (Qang n (wrapTwoPi u / 2)).negate := by
  have hE := EPSILON_pos
  rw [angleToBallPoint_scale, ballCoef_high h1 h2]
  have hnn : vec3Norm (vec3Negate n) = 1 := by rw [vec3Norm_negate]; exact hn
  rw [vec3Scale_neg]
  rw [fromSO3Point_scale_unit hnn (by linarith : EPSILON ≤ 2 * PI - wrapTwoPi u)]
  rw [Qang_negAxis, Qang_negate]
  congr 1
  ring

/-- Half-angle of the lifted quaternion of sample angle `u` for a loop of
total angle `2π`: the if-chain mirrors the snap bands of the ball map. -/
noncomputable def halfAngle2 (u : ℝ) : ℝ :=
  if u < EPSILON then 0
  else if 2 * PI - EPSILON < u then PI
  else u / 2

/-- Half-angle of the lifted quaternion of sample angle `u` for a loop of
total angle `4π`. -/
noncomputable def halfAngle4 (u : ℝ) : ℝ :=
  if u < EPSILON then 0
  else if |u - 2 * PI| < EPSILON then PI
  else if 4 * PI - EPSILON < u then 2 * PI
  else u / 2

theorem lift2pi_step (n : Vec3) (hn : vec3Norm n = 1) {st pv v : ℝ}
    (hst0 : 0 < st) (hst4 : st < PI / 4)
    (hpv0 : 0 ≤ pv) (hveq : v = pv + st) (hv2 : v ≤ 2 * PI) :
    liftStep (Qang n (halfAngle2 pv)) (angleToBallPoint n v) = Qang n (halfAngle2 v) := by
  have hPI := PI_pos
  have hP3 := PI_gt_three
  have hE1 := EPSILON_lt_one
  have hEpos := EPSILON_pos
  have hnsq := normSq_of_vec3Norm_unit hn
  have hv0 : 0 ≤ v := by linarith
  unfold liftStep
  dsimp only
  by_cases hA : v < EPSILON
  · have hwv : wrapTwoPi v = v := wrapTwoPi_id v hv0 (by linarith)
    rw [raw_band (Or.inl (by rw [hwv]; exact hA))]
    have hpA : pv < EPSILON := by linarith
    have hα : halfAngle2 pv = 0 := by unfold halfAngle2; rw [if_pos hpA]
    have hα2 : halfAngle2 v = 0 := by unfold halfAngle2; rw [if_pos hA]
    rw [hα, hα2, ← Qang_zero n, Qang_dot n hnsq]
    rw [if_neg (by rw [show (0:ℝ) - 0 = 0 by ring, Real.cos_zero]; norm_num)]
  · push_neg at hA
    by_cases hB : v ≤ PI
    · have hwv : wrapTwoPi v = v := wrapTwoPi_id v hv0 (by linarith)
      rw [raw_low hn (by rw [hwv]; exact hA) (by rw [hwv]; exact hB), hwv]
      have hpv2 : ¬ 2 * PI - EPSILON < pv := by push_neg; linarith
      have hφ : 0 ≤ halfAngle2 pv ∧ halfAngle2 pv ≤ v / 2 := by
        unfold halfAngle2
        by_cases hp : pv < EPSILON
        · rw [if_pos hp]
          exact ⟨le_refl 0, by linarith⟩
        · rw [if_neg hp, if_neg hpv2]
          exact ⟨by linarith, by linarith⟩
      rw [Qang_dot n hnsq]
      rw [if_neg (not_lt.mpr (cos_nonneg_Icc (by linarith [hφ.1, hφ.2])
        (by linarith [hφ.1, hφ.2])))]
      have hα2 : halfAngle2 v = v / 2 := by
        unfold halfAngle2
        rw [if_neg (not_lt.mpr hA), if_neg (by push_neg; linarith)]
      rw [hα2]
    · push_neg at hB
      by_cases hC : v ≤ 2 * PI - EPSILON
      · have hwv : wrapTwoPi v = v := wrapTwoPi_id v hv0 (by linarith)
        rw [raw_high hn (by rw [hwv]; exact hB) (by rw [hwv]; exact hC), hwv]
        have hp1 : ¬ pv < EPSILON := by push_neg; linarith
        have hp2 : ¬ 2 * PI - EPSILON < pv := by push_neg; linarith
        have hα : halfAngle2 pv = pv / 2 := by
          unfold halfAngle2
          rw [if_neg hp1, if_neg hp2]
        rw [hα, Qang_negate, Qang_dot n hnsq]
        have hd : Real.cos (v / 2 + PI - pv / 2) < 0 := by
          rw [show v / 2 + PI - pv / 2 = st / 2 + PI by rw [hveq]; ring, cosPI_add]
          have := cos_pos_Ioo (x := st / 2) (by linarith) (by linarith)
          linarith
        rw [if_pos hd, Qang_negate]
        rw [show v / 2 + PI + PI = v / 2 + 2 * PI by ring, Qang_add_two_pi]
        have hα2 : halfAngle2 v = v / 2 := by
          unfold halfAngle2
          rw [if_neg (by push_neg; linarith), if_neg (by push_neg; linarith)]
        rw [hα2]
      · push_neg at hC
        have hband : wrapTwoPi v < EPSILON ∨ |wrapTwoPi v - 2 * PI| < EPSILON := by
          rcases lt_or_eq_of_le hv2 with hlt | heq
          · have hwv : wrapTwoPi v = v := wrapTwoPi_id v hv0 hlt
            right
            rw [hwv, abs_of_nonpos (by linarith)]
            linarith
          · left
            rw [heq, wrapTwoPi_two_pi]
            exact hEpos
        rw [raw_band hband]
        have hp1 : ¬ pv < EPSILON := by push_neg; linarith
        have hφ : PI / 2 < halfAngle2 pv ∧ halfAngle2 pv ≤ PI := by
          unfold halfAngle2
          rw [if_neg hp1]
          by_cases hp2 : 2 * PI - EPSILON < pv
          · rw [if_pos hp2]
            exact ⟨by linarith, le_refl PI⟩
          · rw [if_neg hp2]
            push_neg at hp2
            exact ⟨by linarith, by linarith⟩
        rw [← Qang_zero n, Qang_dot n hnsq]
        have hd : Real.cos (0 - halfAngle2 pv) < 0 := by
          rw [zero_sub, Real.cos_neg]
          exact cos_neg_mid hφ.1 (by linarith [hφ.2])
        rw [if_pos hd, Qang_negate, zero_add]
        have hα2 : halfAngle2 v = PI := by
          unfold halfAngle2
          rw [if_neg (by push_neg; linarith), if_pos (by linarith)]
        rw [hα2]

theorem lift2pi_formula (n : Vec3) (hn : vec3Norm n = 1) (N : ℕ)
    (hNpos : 0 < N) (hstep : 2 * PI / (N : ℝ) < PI / 4) :
    liftPath ((List.range (N + 1)).map
      (fun (i : ℕ) => angleToBallPoint n ((i : ℝ) / (N : ℝ) * (2 * PI)))) =
    (List.range (N + 1)).map
      (fun (i : ℕ) => Qang n (halfAngle2 ((i : ℝ) / (N : ℝ) * (2 * PI)))) := by
  have hNr : (0:ℝ) < N := by exact_mod_cast hNpos
  apply liftPath_map_range
  · rw [show ((0:ℕ) : ℝ) / (N : ℝ) * (2 * PI) = 0 by norm_num]
    unfold liftStart
    have hw0 : wrapTwoPi 0 = 0 := wrapTwoPi_id 0 (le_refl 0) two_PI_pos
    rw [raw_band (Or.inl (by rw [hw0]; exact EPSILON_pos))]
    rw [if_neg (by norm_num [Quaternion.identity] : ¬ (Quaternion.identity.w < 0))]
    have hα : halfAngle2 0 = 0 := by unfold halfAngle2; rw [if_pos EPSILON_pos]
    rw [hα, Qang_zero]
  · intro j hj
    have hveq : ((j + 1 : ℕ) : ℝ) / (N : ℝ) * (2 * PI) =
        (j : ℝ) / (N : ℝ) * (2 * PI) + 2 * PI / (N : ℝ) := by
      push_cast
      field_simp
      ring
    rw [hveq]
    have hj1 : ((j + 1 : ℕ) : ℝ) / (N : ℝ) ≤ 1 := by
      rw [div_le_one hNr]
      exact_mod_cast Nat.succ_le_of_lt hj
    have hv2 : (j : ℝ) / (N : ℝ) * (2 * PI) + 2 * PI / (N : ℝ) ≤ 2 * PI := by
      rw [← hveq]
      have := mul_le_mul_of_nonneg_right hj1 (le_of_lt two_PI_pos)
      linarith
    exact lift2pi_step n hn (div_pos two_PI_pos hNr) hstep
      (mul_nonneg (by positivity) (le_of_lt two_PI_pos)) rfl hv2

theorem lift4pi_step (n : Vec3) (hn : vec3Norm n = 1) {st pv v : ℝ}
    (hst0 : 0 < st) (hst4 : st < PI / 4)
    (hpv0 : 0 ≤ pv) (hveq : v = pv + st) (hv4 : v ≤ 4 * PI) :
    liftStep (Qang n (halfAngle4 pv)) (angleToBallPoint n v) = Qang n (halfAngle4 v) := by
  have hPI := PI_pos
  have hP3 := PI_gt_three
  have hE1 := EPSILON_lt_one
  have hEpos := EPSILON_pos
  have hnsq := normSq_of_vec3Norm_unit hn
  have hv0 : 0 ≤ v := by linarith
  unfold liftStep
  dsimp only
  by_cases hA : v < EPSILON
  · have hwv : wrapTwoPi v = v := wrapTwoPi_id v hv0 (by linarith)
    rw [raw_band (Or.inl (by rw [hwv]; exact hA))]
    have hα : halfAngle4 pv = 0 := by unfold halfAngle4; rw [if_pos (by linarith : pv < EPSILON)]
    have hα2 : halfAngle4 v = 0 := by unfold halfAngle4; rw [if_pos hA]
    rw [hα, hα2, ← Qang_zero n, Qang_dot n hnsq]
    rw [if_neg (by rw [show (0:ℝ) - 0 = 0 by ring, Real.cos_zero]; norm_num)]
  · push_neg at hA
    by_cases hB : v ≤ PI
    · have hwv : wrapTwoPi v = v := wrapTwoPi_id v hv0 (by linarith)
      rw [raw_low hn (by rw [hwv]; exact hA) (by rw [hwv]; exact hB), hwv]
      have hφ : 0 ≤ halfAngle4 pv ∧ halfAngle4 pv ≤ v / 2 := by
        unfold halfAngle4
        by_cases hp : pv < EPSILON
        · rw [if_pos hp]
          exact ⟨le_refl 0, by linarith⟩
        · rw [if_neg hp,
            if_neg (by rw [abs_of_nonpos (by linarith)]; push_neg; linarith),
            if_neg (by push_neg; linarith)]
          exact ⟨by linarith, by linarith⟩
      rw [Qang_dot n hnsq]
      rw [if_neg (not_lt.mpr (cos_nonneg_Icc (by linarith [hφ.1, hφ.2])
        (by linarith [hφ.1, hφ.2])))]
      have hα2 : halfAngle4 v = v / 2 := by
        unfold halfAngle4
        rw [if_neg (not_lt.mpr hA),
          if_neg (by rw [abs_of_nonpos (by linarith)]; push_neg; linarith),
          if_neg (by push_neg; linarith)]
      rw [hα2]
    · push_neg at hB
      by_cases hC : v ≤ 2 * PI - EPSILON
      · have hwv : wrapTwoPi v = v := wrapTwoPi_id v hv0 (by linarith)
        rw [raw_high hn (by rw [hwv]; exact hB) (by rw [hwv]; exact hC), hwv]
        have hα : halfAngle4 pv = pv / 2 := by
          unfold halfAngle4
          rw [if_neg (by push_neg; linarith),
            if_neg (by rw [abs_of_nonpos (by linarith)]; push_neg; linarith),
            if_neg (by push_neg; linarith)]
        rw [hα, Qang_negate, Qang_dot n hnsq]
        have hd : Real.cos (v / 2 + PI - pv / 2) < 0 := by
          rw [show v / 2 + PI - pv / 2 = st / 2 + PI by rw [hveq]; ring, cosPI_add]
          have := cos_pos_Ioo (x := st / 2) (by linarith) (by linarith)
          linarith
        rw [if_pos hd, Qang_negate]
        rw [show v / 2 + PI + PI = v / 2 + 2 * PI by ring, Qang_add_two_pi]
        have hα2 : halfAngle4 v = v / 2 := by
          unfold halfAngle4
          rw [if_neg (by push_neg; linarith),
            if_neg (by rw [abs_of_nonpos (by linarith)]; push_neg; linarith),
            if_neg (by push_neg; linarith)]
        rw [hα2]
      · push_neg at hC
        by_cases hD : v < 2 * PI + EPSILON
        · have hband : wrapTwoPi v < EPSILON ∨ |wrapTwoPi v - 2 * PI| < EPSILON := by
            rcases lt_trichotomy v (2 * PI) with hlt | heq | hgt
            · have hwv : wrapTwoPi v = v := wrapTwoPi_id v hv0 hlt
              right
              rw [hwv, abs_of_nonpos (by linarith)]
              linarith
            · left
              rw [heq, wrapTwoPi_two_pi]
              exact hEpos
            · left
              rw [wrapTwoPi_high_period (le_of_lt hgt) (by linarith)]
              linarith
          rw [raw_band hband]
          have hp1 : ¬ pv < EPSILON := by push_neg; linarith
          have hφ : PI / 2 < halfAngle4 pv ∧ halfAngle4 pv ≤ PI := by
            unfold halfAngle4
            rw [if_neg hp1]
            by_cases hpb : |pv - 2 * PI| < EPSILON
            · rw [if_pos hpb]
              exact ⟨by linarith, le_refl PI⟩
            · rw [if_neg hpb]
              rcases le_or_lt pv (2 * PI - EPSILON) with hple | hpgt
              · rw [if_neg (by push_neg; linarith)]
                exact ⟨by linarith, by linarith⟩
              · exact absurd (abs_lt.mpr ⟨by linarith, by linarith⟩) hpb
          rw [← Qang_zero n, Qang_dot n hnsq]
          have hd : Real.cos (0 - halfAngle4 pv) < 0 := by
            rw [zero_sub, Real.cos_neg]
            exact cos_neg_mid hφ.1 (by linarith [hφ.2])
          rw [if_pos hd, Qang_negate, zero_add]
          have hα2 : halfAngle4 v = PI := by
            unfold halfAngle4
            rw [if_neg (by push_neg; linarith),
              if_pos (abs_lt.mpr ⟨by linarith, by linarith⟩)]
          rw [hα2]
        · push_neg at hD
          by_cases hE : v ≤ 3 * PI
          · have hwv : wrapTwoPi v = v - 2 * PI :=
              wrapTwoPi_high_period (by linarith) (by linarith)
            rw [raw_low hn (by rw [hwv]; linarith) (by rw [hwv]; linarith), hwv]
            have hp1 : ¬ pv < EPSILON := by push_neg; linarith
            by_cases hpb : |pv - 2 * PI| < EPSILON
            · have hα : halfAngle4 pv = PI := by
                unfold halfAngle4
                rw [if_neg hp1, if_pos hpb]
              have hpb2 := abs_lt.mp hpb
              rw [hα, Qang_dot n hnsq]
              have hd : Real.cos ((v - 2 * PI) / 2 - PI) < 0 := by
                rw [show (v - 2 * PI) / 2 - PI = v / 2 - 2 * PI by ring, cosPI_sub_two_pi]
                exact cos_neg_mid (by linarith) (by linarith)
              rw [if_pos hd, Qang_negate]
              rw [show (v - 2 * PI) / 2 + PI = v / 2 by ring]
              have hα2 : halfAngle4 v = v / 2 := by
                unfold halfAngle4
                rw [if_neg (by push_neg; linarith),
                  if_neg (by rw [abs_of_nonneg (by linarith)]; push_neg; linarith),
                  if_neg (by push_neg; linarith)]
              rw [hα2]
            · have hα : halfAngle4 pv = pv / 2 := by
                unfold halfAngle4
                rcases le_or_lt pv (2 * PI - EPSILON) with hple | hpgt
                · rw [if_neg hp1, if_neg hpb, if_neg (by push_neg; linarith)]
                · rcases lt_or_le pv (2 * PI + EPSILON) with hplt2 | hpge2
                  · exact absurd (abs_lt.mpr ⟨by linarith, by linarith⟩) hpb
                  · rw [if_neg hp1, if_neg hpb, if_neg (by push_neg; linarith)]
              rw [hα, Qang_dot n hnsq]
              have hd : Real.cos ((v - 2 * PI) / 2 - pv / 2) < 0 := by
                rw [show (v - 2 * PI) / 2 - pv / 2 = -(PI - st / 2) by rw [hveq]; ring,
                  Real.cos_neg, cosPI_pi_sub]
                have := cos_pos_Ioo (x := st / 2) (by linarith) (by linarith)
                linarith
              rw [if_pos hd, Qang_negate]
              rw [show (v - 2 * PI) / 2 + PI = v / 2 by ring]
              have hα2 : halfAngle4 v = v / 2 := by
                unfold halfAngle4
                rw [if_neg (by push_neg; linarith),
                  if_neg (by rw [abs_of_nonneg (by linarith)]; push_neg; linarith),
                  if_neg (by push_neg; linarith)]
              rw [hα2]
          · push_neg at hE
            by_cases hF : v ≤ 4 * PI - EPSILON
            · have hwv : wrapTwoPi v = v - 2 * PI :=
                wrapTwoPi_high_period (by linarith) (by linarith)
              rw [raw_high hn (by rw [hwv]; linarith) (by rw [hwv]; linarith), hwv]
              have hα : halfAngle4 pv = pv / 2 := by
                unfold halfAngle4
                rw [if_neg (by push_neg; linarith),
                  if_neg (by rw [abs_of_nonneg (by linarith)]; push_neg; linarith),
                  if_neg (by push_neg; linarith)]
              rw [hα, Qang_negate, Qang_dot n hnsq]
              have hd : ¬ Real.cos ((v - 2 * PI) / 2 + PI - pv / 2) < 0 := by
                rw [show (v - 2 * PI) / 2 + PI - pv / 2 = st / 2 by rw [hveq]; ring]
                have := cos_pos_Ioo (x := st / 2) (by linarith) (by linarith)
                linarith
              rw [if_neg hd]
              rw [show (v - 2 * PI) / 2 + PI = v / 2 by ring]
              have hα2 : halfAngle4 v = v / 2 := by
                unfold halfAngle4
                rw [if_neg (by push_neg; linarith),
                  if_neg (by rw [abs_of_nonneg (by linarith)]; push_neg; linarith),
                  if_neg (by push_neg; linarith)]
              rw [hα2]
            · push_neg at hF
              have hband : wrapTwoPi v < EPSILON ∨ |wrapTwoPi v - 2 * PI| < EPSILON := by
                rcases lt_or_eq_of_le hv4 with hlt | heq
                · right
                  rw [wrapTwoPi_high_period (by linarith) hlt,
                    abs_of_nonpos (by linarith)]
                  linarith
                · left
                  rw [heq, wrapTwoPi_four_pi]
                  exact hEpos
              rw [raw_band hband]
              have hφ : 3 * PI / 2 < halfAngle4 pv ∧ halfAngle4 pv ≤ 2 * PI := by
                unfold halfAngle4
                rw [if_neg (by push_neg; linarith),
                  if_neg (by rw [abs_of_nonneg (by linarith)]; push_neg; linarith)]
                by_cases hp4 : 4 * PI - EPSILON < pv
                · rw [if_pos hp4]
                  exact ⟨by linarith, le_refl (2 * PI)⟩
                · rw [if_neg hp4]
                  push_neg at hp4
                  exact ⟨by linarith, by linarith⟩
              rw [← Qang_zero n, Qang_dot n hnsq]
              have hd : ¬ Real.cos (0 - halfAngle4 pv) < 0 := by
                rw [zero_sub, Real.cos_neg]
                have he : Real.cos (halfAngle4 pv) = Real.cos (halfAngle4 pv - 2 * PI) :=
                  (cosPI_sub_two_pi (halfAngle4 pv)).symm
                rw [he]
                have := cos_pos_Ioo (x := halfAngle4 pv - 2 * PI)
                  (by linarith [hφ.1]) (by linarith [hφ.2])
                linarith
              rw [if_neg hd]
              have hα2 : halfAngle4 v = 2 * PI := by
                unfold halfAngle4
                rw [if_neg (by push_neg; linarith),
                  if_neg (by rw [abs_of_nonneg (by linarith)]; push_neg; linarith),
                  if_pos (by linarith)]
              rw [hα2, Qang_zero, Qang_two_pi]

theorem lift4pi_formula (n : Vec3) (hn : vec3Norm n = 1) (N : ℕ)
    (hNpos : 0 < N) (hstep : 4 * PI / (N : ℝ) < PI / 4) :
    liftPath ((List.range (N + 1)).map
      (fun (i : ℕ) => angleToBallPoint n ((i : ℝ) / (N : ℝ) * (4 * PI)))) =
    (List.range (N + 1)).map
      (fun (i : ℕ) => Qang n (halfAngle4 ((i : ℝ) / (N : ℝ) * (4 * PI)))) := by
  have hNr : (0:ℝ) < N := by exact_mod_cast hNpos
  have hPI := PI_pos
  apply liftPath_map_range
  · rw [show ((0:ℕ) : ℝ) / (N : ℝ) * (4 * PI) = 0 by norm_num]
    unfold liftStart
    dsimp only
    have hw0 : wrapTwoPi 0 = 0 := wrapTwoPi_id 0 (le_refl 0) two_PI_pos
    rw [raw_band (Or.inl (by rw [hw0]; exact EPSILON_pos))]
    rw [if_neg (by norm_num [Quaternion.identity] : ¬ (Quaternion.identity.w < 0))]
    have hα : halfAngle4 0 = 0 := by unfold halfAngle4; rw [if_pos EPSILON_pos]
    rw [hα, Qang_zero]
  · intro j hj
    have hveq : ((j + 1 : ℕ) : ℝ) / (N : ℝ) * (4 * PI) =
        (j : ℝ) / (N : ℝ) * (4 * PI) + 4 * PI / (N : ℝ) := by
      push_cast
      field_simp
      ring
    rw [hveq]
    have hj1 : ((j + 1 : ℕ) : ℝ) / (N : ℝ) ≤ 1 := by
      rw [div_le_one hNr]
      exact_mod_cast Nat.succ_le_of_lt hj
    have hv4 : (j : ℝ) / (N : ℝ) * (4 * PI) + 4 * PI / (N : ℝ) ≤ 4 * PI := by
      rw [← hveq]
      have := mul_le_mul_of_nonneg_right hj1 (by linarith : (0:ℝ) ≤ 4 * PI)
      linarith
    exact lift4pi_step n hn (div_pos (by linarith) hNr) hstep
      (mul_nonneg (by positivity) (by linarith)) rfl hv4

theorem endpoint_eval (q0 qN : Quaternion) (f : ℕ → Quaternion) (N : ℕ) (hNpos : 0 < N)
    (h0 : f 0 = q0) (hN : f N = qN) (eps : ℝ) :
    (isLiftedPathClosed ((List.range (N + 1)).map f) eps ↔ q0.approxEqual qN eps) ∧
    (isLiftedPathAntipodal ((List.range (N + 1)).map f) eps ↔
      q0.approxEqual qN.negate eps) := by
  have hlen : ((List.range (N + 1)).map f).length = N + 1 := length_map_range f (N + 1)
  have hnot : ¬ ((List.range (N + 1)).map f).length < 2 := by rw [hlen]; omega
  constructor
  · unfold isLiftedPathClosed
    rw [if_neg hnot, hlen, Nat.add_sub_cancel,
      getD_map_range f (Nat.succ_pos N), getD_map_range f (Nat.lt_succ_self N), h0, hN]
  · unfold isLiftedPathAntipodal
    rw [if_neg hnot, hlen, Nat.add_sub_cancel,
      getD_map_range f (Nat.succ_pos N), getD_map_range f (Nat.lt_succ_self N), h0, hN]

/-- C1: for a unit axis and a sampling dense enough that the angular step
is below `π/4`, the lifted 2π loop is not closed but is antipodal, while
the lifted 4π loop is closed (at the default tolerance `1e-4`). -/
theorem C1_lift_detects_contractibility (axis : Vec3) (hunit : vec3Norm axis = 1)
    (N : ℕ) (hNpos : 0 < N)
    (h2step : 2 * PI / (N : ℝ) < PI / 4) (h4step : 4 * PI / (N : ℝ) < PI / 4) :
    ¬ isLiftedPathClosed (liftPath (generateLoop axis (2 * PI) N).points) (1 / 10 ^ 4) ∧
    isLiftedPathAntipodal (liftPath (generateLoop axis (2 * PI) N).points) (1 / 10 ^ 4) ∧
    isLiftedPathClosed (liftPath (generateLoop axis (4 * PI) N).points) (1 / 10 ^ 4) := by
  have hNr : (0:ℝ) < N := by exact_mod_cast hNpos
  have hPI := PI_pos
  have hEP := EPSILON_lt_PI
  have hEpos := EPSILON_pos
  have hp2 : (generateLoop axis (2 * PI) N).points =
      (List.range (N + 1)).map
        (fun (i : ℕ) => angleToBallPoint axis ((i : ℝ) / (N : ℝ) * (2 * PI))) := by
    rw [generateLoop_points]
    simp only [vec3Normalize_unit hunit]
  have hp4 : (generateLoop axis (4 * PI) N).points =
      (List.range (N + 1)).map
        (fun (i : ℕ) => angleToBallPoint axis ((i : ℝ) / (N : ℝ) * (4 * PI))) := by
    rw [generateLoop_points]
    simp only [vec3Normalize_unit hunit]
  have hf0 : Qang axis (halfAngle2 (((0:ℕ) : ℝ) / (N : ℝ) * (2 * PI))) =
      Quaternion.identity := by
    rw [show ((0:ℕ) : ℝ) / (N : ℝ) * (2 * PI) = 0 by norm_num]
    have hα : halfAngle2 0 = 0 := by unfold halfAngle2; rw [if_pos hEpos]
    rw [hα, Qang_zero]
  have hfN : Qang axis (halfAngle2 ((N : ℝ) / (N : ℝ) * (2 * PI))) =
      (⟨-1, 0, 0, 0⟩ : Quaternion) := by
    rw [show (N : ℝ) / (N : ℝ) * (2 * PI) = 2 * PI by rw [div_self (ne_of_gt hNr), one_mul]]
    have hα : halfAngle2 (2 * PI) = PI := by
      unfold halfAngle2
      rw [if_neg (by push_neg; linarith), if_pos (by linarith)]
    rw [hα, Qang_pi]
  have hg0 : Qang axis (halfAngle4 (((0:ℕ) : ℝ) / (N : ℝ) * (4 * PI))) =
      Quaternion.identity := by
    rw [show ((0:ℕ) : ℝ) / (N : ℝ) * (4 * PI) = 0 by norm_num]
    have hα : halfAngle4 0 = 0 := by unfold halfAngle4; rw [if_pos hEpos]
    rw [hα, Qang_zero]
  have hgN : Qang axis (halfAngle4 ((N : ℝ) / (N : ℝ) * (4 * PI))) =
      Quaternion.identity := by
    rw [show (N : ℝ) / (N : ℝ) * (4 * PI) = 4 * PI by rw [div_self (ne_of_gt hNr), one_mul]]
    have hα : halfAngle4 (4 * PI) = 2 * PI := by
      unfold halfAngle4
      rw [if_neg (by push_neg; linarith),
        if_neg (by rw [abs_of_nonneg (by linarith)]; push_neg; linarith),
        if_pos (by linarith)]
    rw [hα, Qang_two_pi]
  have hev2 := endpoint_eval Quaternion.identity (⟨-1, 0, 0, 0⟩ : Quaternion)
    (fun (i : ℕ) => Qang axis (halfAngle2 ((i : ℝ) / (N : ℝ) * (2 * PI)))) N hNpos
    hf0 hfN (1 / 10 ^ 4)
  have hev4 := endpoint_eval Quaternion.identity Quaternion.identity
    (fun (i : ℕ) => Qang axis (halfAngle4 ((i : ℝ) / (N : ℝ) * (4 * PI)))) N hNpos
    hg0 hgN (1 / 10 ^ 4)
  refine ⟨?_, ?_, ?_⟩
  · rw [hp2, lift2pi_formula axis hunit N hNpos h2step, hev2.1]
    intro hcl
    have h1 := hcl.1
    simp only [Quaternion.identity] at h1
    norm_num at h1
  · rw [hp2, lift2pi_formula axis hunit N hNpos h2step, hev2.2]
    simp only [Quaternion.approxEqual, Quaternion.identity, Quaternion.negate]
    norm_num
  · rw [hp4, lift4pi_formula axis hunit N hNpos h4step, hev4.1]
    simp only [Quaternion.approxEqual, Quaternion.identity]
    norm_num

theorem C1_lift_detects_contractibility_witness :
    (vec3Norm (vec3 0 0 1) = 1 ∧ 0 < 20 ∧
        2 * PI / ((20:ℕ) : ℝ) < PI / 4 ∧ 4 * PI / ((20:ℕ) : ℝ) < PI / 4) ∧
      (¬ isLiftedPathClosed
          (liftPath (generateLoop (vec3 0 0 1) (2 * PI) 20).points) (1 / 10 ^ 4) ∧
        isLiftedPathAntipodal
          (liftPath (generateLoop (vec3 0 0 1) (2 * PI) 20).points) (1 / 10 ^ 4) ∧
        isLiftedPathClosed
          (liftPath (generateLoop (vec3 0 0 1) (4 * PI) 20).points) (1 / 10 ^ 4)) :=
  ⟨⟨vec3Norm_z_unit, by norm_num,
      by
        have := PI_pos
        rw [div_lt_iff (by norm_num : (0:ℝ) < ((20:ℕ) : ℝ))]
        push_cast
        linarith,
      by
        have := PI_pos
        rw [div_lt_iff (by norm_num : (0:ℝ) < ((20:ℕ) : ℝ))]
        push_cast
        linarith⟩,
    C1_lift_detects_contractibility (vec3 0 0 1) vec3Norm_z_unit 20 (by norm_num)
      (by
        have := PI_pos
        rw [div_lt_iff (by norm_num : (0:ℝ) < ((20:ℕ) : ℝ))]
        push_cast
        linarith)
      (by
        have := PI_pos
        rw [div_lt_iff (by norm_num : (0:ℝ) < ((20:ℕ) : ℝ))]
        push_cast
        linarith)⟩

/-! ### Claim C3: jump detection -/

theorem generateLoop_jumpIndices (axis : Vec3) (totalAngle : ℝ) (N : ℕ) :
    (generateLoop axis totalAngle N).jumpIndices = (List.range' 1 N).filter
      (fun i =>
        let prev := (generateLoop axis totalAngle N).points.getD (i - 1) (vec3 0 0 0)
        let curr := (generateLoop axis totalAngle N).points.getD i (vec3 0 0 0)
        decide (PI < vec3Norm
          (vec3 (curr.x - prev.x) (curr.y - prev.y) (curr.z - prev.z)))) := rfl

theorem vec3_sub_scale (v : Vec3) (a b : ℝ) :
    vec3 ((vec3Scale v a).x - (vec3Scale v b).x) ((vec3Scale v a).y - (vec3Scale v b).y)
      ((vec3Scale v a).z - (vec3Scale v b).z) = vec3Scale v (a - b) := by
  simp only [vec3, vec3Scale, Vec3.mk.injEq]
  refine ⟨by ring, by ring, by ring⟩

theorem points_getD_scale (axis : Vec3) (hunit : vec3Norm axis = 1) (A : ℝ) {N i : ℕ}
    (hi : i < N + 1) :
    (generateLoop axis A N).points.getD i (vec3 0 0 0) =
      vec3Scale axis (ballCoef ((i : ℝ) / (N : ℝ) * A)) := by
  rw [generateLoop_points, getD_map_range _ hi, vec3Normalize_unit hunit,
    angleToBallPoint_scale]

theorem jumpIndices_scalar (axis : Vec3) (hunit : vec3Norm axis = 1) (A : ℝ) (N : ℕ) :
    (generateLoop axis A N).jumpIndices = (List.range' 1 N).filter
      (fun (i : ℕ) => decide (PI < |ballCoef ((i : ℝ) / (N : ℝ) * A)
        - ballCoef (((i - 1 : ℕ) : ℝ) / (N : ℝ) * A)|)) := by
  rw [generateLoop_jumpIndices]
  apply List.filter_congr
  intro i hi
  rcases List.mem_range'_1.mp hi with ⟨h1i, h2i⟩
  have hiN : i < N + 1 := by omega
  have hi1N : i - 1 < N + 1 := by omega
  dsimp only
  rw [decide_eq_decide]
  rw [points_getD_scale axis hunit A hiN, points_getD_scale axis hunit A hi1N,
    vec3_sub_scale, vec3Norm_scale, hunit, mul_one]

/-- Branch inversion for the ball coefficient. -/
theorem ballCoef_cases (u : ℝ) :
    ballCoef u = 0 ∨
    (ballCoef u = wrapTwoPi u ∧ EPSILON ≤ wrapTwoPi u ∧ wrapTwoPi u ≤ PI) ∨
    (ballCoef u = -(2 * PI - wrapTwoPi u) ∧ PI < wrapTwoPi u ∧
      wrapTwoPi u ≤ 2 * PI - EPSILON) := by
  have hw2 := wrapTwoPi_lt u
  by_cases h1 : wrapTwoPi u < EPSILON ∨ |wrapTwoPi u - 2 * PI| < EPSILON
  · left
    exact ballCoef_band h1
  · push_neg at h1
    have hE : EPSILON ≤ wrapTwoPi u := h1.1
    have hB : wrapTwoPi u ≤ 2 * PI - EPSILON := by
      have h2 := h1.2
      rw [abs_of_nonpos (by linarith)] at h2
      linarith
    by_cases h2 : wrapTwoPi u ≤ PI
    · right; left
      exact ⟨ballCoef_low hE h2, hE, h2⟩
    · right; right
      push_neg at h2
      exact ⟨ballCoef_high h2 hB, h2, hB⟩

theorem wrapTwoPi_eq_floor (a : ℝ) :
    wrapTwoPi a = a - 2 * PI * (⌊a / (2 * PI)⌋ : ℝ) := by
  have h2 : (2:ℝ) * PI ≠ 0 := ne_of_gt two_PI_pos
  rw [wrapTwoPi_eq_fract, Int.fract]
  field_simp

/-- A detected jump between consecutive samples less than `π` apart forces
the unwrapped angle to cross an odd multiple of `π` in between. -/
theorem jump_implies_crossing {u v : ℝ} (h0 : 0 ≤ u) (huv : u < v) (hsp : v - u < PI)
    (hj : PI < |ballCoef v - ballCoef u|) :
    ∃ m : ℕ, u ≤ (2 * (m : ℝ) + 1) * PI ∧ (2 * (m : ℝ) + 1) * PI < v := by
  have hPI := PI_pos
  have hEpos := EPSILON_pos
  have h2p := two_PI_pos
  have hwu : wrapTwoPi u = u - 2 * PI * ((⌊u / (2 * PI)⌋ : ℤ) : ℝ) := wrapTwoPi_eq_floor u
  have hwv : wrapTwoPi v = v - 2 * PI * ((⌊v / (2 * PI)⌋ : ℤ) : ℝ) := wrapTwoPi_eq_floor v
  set mu := ⌊u / (2 * PI)⌋ with hmudef
  set mv := ⌊v / (2 * PI)⌋ with hmvdef
  have hm0 : 0 ≤ mu := Int.floor_nonneg.mpr (div_nonneg h0 (le_of_lt h2p))
  have hmle : mu ≤ mv :=
    Int.floor_le_floor ((div_le_div_right h2p).mpr (le_of_lt huv))
  have hmub : mv ≤ mu + 1 := by
    have hv2 : v < u + 2 * PI := by linarith
    have hq : v / (2 * PI) < u / (2 * PI) + 1 := by
      rw [div_lt_iff h2p]
      have : (u / (2 * PI) + 1) * (2 * PI) = u + 2 * PI := by field_simp
      rw [this]
      exact hv2
    have := Int.floor_le_floor (le_of_lt hq)
    rw [Int.floor_add_one] at this
    exact le_trans this (le_refl _)
  have hru0 := wrapTwoPi_nonneg u
  have hru2 := wrapTwoPi_lt u
  have hrv0 := wrapTwoPi_nonneg v
  have hrv2 := wrapTwoPi_lt v
  have hcu := abs_le.mp (abs_ballCoef_le u)
  have hcv := abs_le.mp (abs_ballCoef_le v)
  rcases lt_or_le (ballCoef v - ballCoef u) 0 with hsign | hsign
  · have hgt : PI < ballCoef u - ballCoef v := by
      rw [abs_of_neg hsign] at hj
      linarith
    have hcu_pos : 0 < ballCoef u := by linarith [hcv.1]
    have hcv_neg : ballCoef v < 0 := by linarith [hcu.2]
    rcases ballCoef_cases u with hU | hU | hU
    · rw [hU] at hcu_pos
      exact absurd hcu_pos (lt_irrefl 0)
    · rcases ballCoef_cases v with hV | hV | hV
      · rw [hV] at hcv_neg
        exact absurd hcv_neg (lt_irrefl 0)
      · rw [hV.1] at hcv_neg
        linarith [hV.2.1]
      · -- u in the near branch, v in the far branch
        obtain ⟨hcuE, hθu1, hθu2⟩ := hU
        obtain ⟨hcvE, hθv1, hθv2⟩ := hV
        have hcases : mv = mu ∨ mv = mu + 1 := by omega
        rcases hcases with hc | hc
        · refine ⟨mu.toNat, ?_, ?_⟩
          · have htn : ((mu.toNat : ℕ) : ℝ) = (mu : ℝ) := by
              exact_mod_cast Int.toNat_of_nonneg hm0
            rw [htn]
            have := hθu2
            rw [hwu] at this
            linarith
          · have htn : ((mu.toNat : ℕ) : ℝ) = (mu : ℝ) := by
              exact_mod_cast Int.toNat_of_nonneg hm0
            rw [htn]
            have := hθv1
            rw [hwv, hc] at this
            linarith
        · exfalso
          have h1 := hθv1
          rw [hwv, hc] at h1
          push_cast at h1
          have h2 := hθu2
          rw [hwu] at h2
          linarith
    · rw [hU.1] at hcu_pos
      linarith [hU.2.1]
  · have hgt : PI < ballCoef v - ballCoef u := by
      rw [abs_of_nonneg hsign] at hj
      exact hj
    exfalso
    have hcv_pos : 0 < ballCoef v := by linarith [hcu.1]
    have hcu_neg : ballCoef u < 0 := by linarith [hcv.2]
    rcases ballCoef_cases u with hU | hU | hU
    · rw [hU] at hcu_neg
      exact absurd hcu_neg (lt_irrefl 0)
    · rw [hU.1] at hcu_neg
      linarith [hU.2.1]
    · rcases ballCoef_cases v with hV | hV | hV
      · rw [hV] at hcv_pos
        exact absurd hcv_pos (lt_irrefl 0)
      · obtain ⟨hcuE, hθu1, hθu2⟩ := hU
        obtain ⟨hcvE, hθv1, hθv2⟩ := hV
        have hcases : mv = mu ∨ mv = mu + 1 := by omega
        rcases hcases with hc | hc
        · -- same block: wrapped angle would have to decrease
          have h1 := hθu1
          rw [hwu] at h1
          have h2 := hθv2
          rw [hwv, hc] at h2
          linarith
        · -- next block: the coefficient gap is only the step
          have hgap : ballCoef v - ballCoef u = v - u := by
            rw [hcuE, hcvE, hwu, hwv, hc]
            push_cast
            ring
          rw [hgap] at hgt
          linarith
      · rw [hV.1] at hcv_pos
        linarith [hV.2.1]

/-- Conversely, if the unwrapped angle crosses an odd multiple of `π`
within one sampling step of at most `π - EPSILON`, the jump is detected. -/
theorem crossing_implies_jump {u v : ℝ} (h0 : 0 ≤ u) (hdle : v - u ≤ PI - EPSILON)
    (huv : u < v) {m : ℕ} (h1 : u ≤ (2 * (m : ℝ) + 1) * PI)
    (h2 : (2 * (m : ℝ) + 1) * PI < v) :
    PI < |ballCoef v - ballCoef u| := by
  have hPI := PI_pos
  have hEpos := EPSILON_pos
  have h2p := two_PI_pos
  have hwu : wrapTwoPi u = u - 2 * PI * (m : ℝ) := by
    have := wrapTwoPi_eq_sub u (m : ℤ) (by push_cast; linarith) (by push_cast; linarith)
    rw [this]
    push_cast
    ring
  have hwv : wrapTwoPi v = v - 2 * PI * (m : ℝ) := by
    have := wrapTwoPi_eq_sub v (m : ℤ) (by push_cast; linarith) (by push_cast; linarith)
    rw [this]
    push_cast
    ring
  have hcuE : ballCoef u = wrapTwoPi u :=
    ballCoef_low (by rw [hwu]; linarith) (by rw [hwu]; linarith)
  have hcvE : ballCoef v = -(2 * PI - wrapTwoPi v) :=
    ballCoef_high (by rw [hwv]; linarith) (by rw [hwv]; linarith)
  have hgap : ballCoef u - ballCoef v = 2 * PI - (v - u) := by
    rw [hcuE, hcvE, hwu, hwv]
    ring
  rw [abs_sub_comm, abs_of_pos (by linarith [hgap] : 0 < ballCoef u - ballCoef v), hgap]
  linarith

/-- Index of the `m`-th detected jump of a `2πk` loop with `N` samples. -/
def jumpIdx (k N m : ℕ) : ℕ := (2 * m + 1) * N / (2 * k) + 1

theorem scaled_le_iff {N : ℕ} (hNr : (0:ℝ) < N) (x y : ℕ) :
    (x : ℝ) * PI / (N : ℝ) ≤ (y : ℝ) * PI / (N : ℝ) ↔ x ≤ y := by
  rw [div_le_div_iff hNr hNr]
  constructor
  · intro h
    have h1 : (x : ℝ) * (PI * (N : ℝ)) ≤ (y : ℝ) * (PI * (N : ℝ)) := by linarith
    have h2 : (x : ℝ) ≤ (y : ℝ) :=
      le_of_mul_le_mul_right h1 (mul_pos PI_pos hNr)
    exact_mod_cast h2
  · intro h
    have h2 : (x : ℝ) ≤ (y : ℝ) := by exact_mod_cast h
    nlinarith [mul_nonneg (sub_nonneg.mpr h2) (le_of_lt (mul_pos PI_pos hNr))]

theorem scaled_lt_iff {N : ℕ} (hNr : (0:ℝ) < N) (x y : ℕ) :
    (x : ℝ) * PI / (N : ℝ) < (y : ℝ) * PI / (N : ℝ) ↔ x < y := by
  constructor
  · intro h
    by_contra hc
    push_neg at hc
    exact absurd ((scaled_le_iff hNr y x).mpr hc) (not_le.mpr h)
  · intro h
    rcases lt_or_le ((x : ℝ) * PI / (N : ℝ)) ((y : ℝ) * PI / (N : ℝ)) with h2 | h2
    · exact h2
    · exact absurd ((scaled_le_iff hNr y x).mp h2) (not_le.mpr h)

theorem u_scaled (k N i : ℕ) : (i : ℝ) / (N : ℝ) * (2 * PI * (k : ℝ)) =
    ((i * (2 * k) : ℕ) : ℝ) * PI / (N : ℝ) := by
  push_cast
  ring

theorem odd_scaled {N : ℕ} (hNr : (0:ℝ) < N) (m : ℕ) :
    (2 * (m : ℝ) + 1) * PI = (((2 * m + 1) * N : ℕ) : ℝ) * PI / (N : ℝ) := by
  push_cast
  field_simp
  ring

theorem jumpIndices_eq (axis : Vec3) (hunit : vec3Norm axis = 1) (k N : ℕ)
    (hk : 1 ≤ k) (hN : 0 < N)
    (hstep : 2 * PI * (k : ℝ) / (N : ℝ) ≤ PI - EPSILON) :
    (generateLoop axis (2 * PI * (k : ℝ)) N).jumpIndices =
      (List.range k).map (jumpIdx k N) := by
  have hNr : (0:ℝ) < N := by exact_mod_cast hN
  have hkr : (0:ℝ) < k := by exact_mod_cast hk
  have hPI := PI_pos
  have hEpos := EPSILON_pos
  have hEP := EPSILON_lt_PI
  have h2k0 : 0 < 2 * k := by omega
  -- the sampling step
  have hstv_pos : 0 < 2 * PI * (k : ℝ) / (N : ℝ) := by positivity
  have hNk : 2 * k < N := by
    by_contra hc
    push_neg at hc
    have hc2 : (N : ℝ) ≤ 2 * (k : ℝ) := by exact_mod_cast hc
    have hge : PI ≤ 2 * PI * (k : ℝ) / (N : ℝ) := by
      rw [le_div_iff hNr]
      nlinarith [mul_le_mul_of_nonneg_left hc2 (le_of_lt PI_pos)]
    linarith [hstep, hge, EPSILON_pos]
  have hsub : ∀ i : ℕ, 1 ≤ i →
      (i : ℝ) / (N : ℝ) * (2 * PI * (k : ℝ)) -
        ((i - 1 : ℕ) : ℝ) / (N : ℝ) * (2 * PI * (k : ℝ)) =
      2 * PI * (k : ℝ) / (N : ℝ) := by
    intro i h1i
    rw [Nat.cast_sub h1i]
    push_cast
    field_simp
    ring
  rw [jumpIndices_scalar axis hunit (2 * PI * (k : ℝ)) N]
  -- membership characterization
  have hchar : ∀ i : ℕ, 1 ≤ i → i ≤ N →
      ((PI < |ballCoef ((i : ℝ) / (N : ℝ) * (2 * PI * (k : ℝ)))
        - ballCoef (((i - 1 : ℕ) : ℝ) / (N : ℝ) * (2 * PI * (k : ℝ)))|) ↔
      ∃ m, m < k ∧ i = jumpIdx k N m) := by
    intro i h1i h2i
    constructor
    · intro hj
      have h0 : 0 ≤ ((i - 1 : ℕ) : ℝ) / (N : ℝ) * (2 * PI * (k : ℝ)) := by positivity
      have huv : ((i - 1 : ℕ) : ℝ) / (N : ℝ) * (2 * PI * (k : ℝ)) <
          (i : ℝ) / (N : ℝ) * (2 * PI * (k : ℝ)) := by
        have := hsub i h1i
        linarith
      have hsp : (i : ℝ) / (N : ℝ) * (2 * PI * (k : ℝ)) -
          ((i - 1 : ℕ) : ℝ) / (N : ℝ) * (2 * PI * (k : ℝ)) < PI := by
        rw [hsub i h1i]
        linarith
      obtain ⟨m, hm1, hm2⟩ := jump_implies_crossing h0 huv hsp hj
      have hm1n : (i - 1) * (2 * k) ≤ (2 * m + 1) * N := by
        rw [u_scaled, odd_scaled hNr m] at hm1
        exact (scaled_le_iff hNr _ _).mp hm1
      have hm2n : (2 * m + 1) * N < i * (2 * k) := by
        rw [u_scaled, odd_scaled hNr m] at hm2
        exact (scaled_lt_iff hNr _ _).mp hm2
      have hmk : m < k := by
        have : (2 * m + 1) * N < 2 * k * N := by
          calc (2 * m + 1) * N < i * (2 * k) := hm2n
            _ ≤ N * (2 * k) := by
                exact Nat.mul_le_mul_right _ h2i
            _ = 2 * k * N := by ring
        have h21 : 2 * m + 1 < 2 * k := by
          by_contra hc
          push_neg at hc
          exact absurd (Nat.mul_le_mul_right N hc) (not_le.mpr this)
        omega
      refine ⟨m, hmk, ?_⟩
      have hdiv : (2 * m + 1) * N / (2 * k) = i - 1 := by
        apply Nat.div_eq_of_lt_le
        · exact hm1n
        · have : (i - 1 + 1) = i := by omega
          rw [this]
          exact hm2n
      unfold jumpIdx
      omega
    · rintro ⟨m, hmk, hieq⟩
      have hi1 : i = (2 * m + 1) * N / (2 * k) + 1 := hieq
      have hm1n : (i - 1) * (2 * k) ≤ (2 * m + 1) * N := by
        have h1 : i - 1 = (2 * m + 1) * N / (2 * k) := by omega
        rw [h1]
        exact Nat.div_mul_le_self _ _
      have hm2n : (2 * m + 1) * N < i * (2 * k) := by
        rw [← Nat.div_lt_iff_lt_mul h2k0]
        omega
      have hm1 : ((i - 1 : ℕ) : ℝ) / (N : ℝ) * (2 * PI * (k : ℝ)) ≤
          (2 * (m : ℝ) + 1) * PI := by
        rw [u_scaled, odd_scaled hNr m]
        exact (scaled_le_iff hNr _ _).mpr hm1n
      have hm2 : (2 * (m : ℝ) + 1) * PI < (i : ℝ) / (N : ℝ) * (2 * PI * (k : ℝ)) := by
        rw [u_scaled, odd_scaled hNr m]
        exact (scaled_lt_iff hNr _ _).mpr hm2n
      have h0 : 0 ≤ ((i - 1 : ℕ) : ℝ) / (N : ℝ) * (2 * PI * (k : ℝ)) := by positivity
      have huv : ((i - 1 : ℕ) : ℝ) / (N : ℝ) * (2 * PI * (k : ℝ)) <
          (i : ℝ) / (N : ℝ) * (2 * PI * (k : ℝ)) := by
        have := hsub i h1i
        linarith
      have hdle : (i : ℝ) / (N : ℝ) * (2 * PI * (k : ℝ)) -
          ((i - 1 : ℕ) : ℝ) / (N : ℝ) * (2 * PI * (k : ℝ)) ≤ PI - EPSILON := by
        rw [hsub i h1i]
        exact hstep
      exact crossing_implies_jump h0 hdle huv hm1 hm2
  -- range bounds for jumpIdx
  have hrange : ∀ m, m < k → 1 ≤ jumpIdx k N m ∧ jumpIdx k N m ≤ N := by
    intro m hmk
    constructor
    · exact Nat.le_add_left 1 _
    · unfold jumpIdx
      have : (2 * m + 1) * N / (2 * k) < N := by
        rw [Nat.div_lt_iff_lt_mul h2k0]
        have h21 : 2 * m + 1 < 2 * k := by omega
        calc (2 * m + 1) * N < (2 * k) * N := by
              exact Nat.mul_lt_mul_of_lt_of_le h21 (le_refl N) hN
          _ = N * (2 * k) := by ring
      omega
  -- strict monotonicity of jumpIdx
  have hmono : ∀ a b : ℕ, a < b → jumpIdx k N a < jumpIdx k N b := by
    intro a b hab
    unfold jumpIdx
    have hle : (2 * a + 1) * N + 2 * k ≤ (2 * b + 1) * N := by
      have : (2 * a + 1) * N + 2 * N ≤ (2 * b + 1) * N := by
        have h1 : (2 * a + 3) * N ≤ (2 * b + 1) * N :=
          Nat.mul_le_mul_right N (by omega)
        calc (2 * a + 1) * N + 2 * N = (2 * a + 3) * N := by ring
          _ ≤ (2 * b + 1) * N := h1
      omega
    have h1 : ((2 * a + 1) * N + 2 * k) / (2 * k) ≤ (2 * b + 1) * N / (2 * k) :=
      Nat.div_le_div_right hle
    rw [Nat.add_div_right _ h2k0] at h1
    omega
  -- assemble the list equality
  have hmem : ∀ x, x ∈ (List.range' 1 N).filter
      (fun (i : ℕ) => decide (PI < |ballCoef ((i : ℝ) / (N : ℝ) * (2 * PI * (k : ℝ)))
        - ballCoef (((i - 1 : ℕ) : ℝ) / (N : ℝ) * (2 * PI * (k : ℝ)))|)) ↔
      x ∈ (List.range k).map (jumpIdx k N) := by
    intro x
    rw [List.mem_filter, List.mem_range'_1, decide_eq_true_iff]
    constructor
    · rintro ⟨⟨hx1, hx2⟩, hjump⟩
      obtain ⟨m, hmk, hxeq⟩ := (hchar x hx1 (by omega)).mp hjump
      exact List.mem_map.mpr ⟨m, List.mem_range.mpr hmk, hxeq.symm⟩
    · intro hx
      obtain ⟨m, hmr, hxeq⟩ := List.mem_map.mp hx
      have hmk := List.mem_range.mp hmr
      obtain ⟨hr1, hr2⟩ := hrange m hmk
      rw [← hxeq]
      refine ⟨⟨hr1, by omega⟩, ?_⟩
      exact (hchar (jumpIdx k N m) hr1 hr2).mpr ⟨m, hmk, rfl⟩
  have hnodup1 : ((List.range' 1 N).filter
      (fun (i : ℕ) => decide (PI < |ballCoef ((i : ℝ) / (N : ℝ) * (2 * PI * (k : ℝ)))
        - ballCoef (((i - 1 : ℕ) : ℝ) / (N : ℝ) * (2 * PI * (k : ℝ)))|))).Nodup :=
    List.Nodup.filter _ (List.nodup_range' 1 N)
  have hpw2 : List.Pairwise (· < ·) ((List.range k).map (jumpIdx k N)) :=
    List.Pairwise.map _ (fun a b hab => hmono a b hab) (List.pairwise_lt_range k)
  have hnodup2 : ((List.range k).map (jumpIdx k N)).Nodup :=
    hpw2.imp (fun h => Nat.ne_of_lt h)
  have hsorted1 : List.Sorted (· ≤ ·) ((List.range' 1 N).filter
      (fun (i : ℕ) => decide (PI < |ballCoef ((i : ℝ) / (N : ℝ) * (2 * PI * (k : ℝ)))
        - ballCoef (((i - 1 : ℕ) : ℝ) / (N : ℝ) * (2 * PI * (k : ℝ)))|))) :=
    ((List.pairwise_lt_range' 1 N).filter _).imp (fun h => Nat.le_of_lt h)
  have hsorted2 : List.Sorted (· ≤ ·) ((List.range k).map (jumpIdx k N)) :=
    hpw2.imp (fun h => Nat.le_of_lt h)
  exact List.eq_of_perm_of_sorted
    ((List.perm_ext_iff_of_nodup hnodup1 hnodup2).mpr hmem) hsorted1 hsorted2

/-- C3 (amended): for a unit axis, k ≥ 1 windings and sampling step
`2πk/N ≤ π − EPSILON`, the generated `2πk` loop reports exactly `k` jump
indices; at each reported index the Euclidean distance between the
consecutive ball points exceeds π, and the j-th jump sits at parameter
`t = i/N` within `1/N` of `(2j+1)/(2k)`.  (The claim's hypothesis
`2πk/N < π` is not enough: inside the EPSILON snap band a crossing can be
swallowed, see the counterexample.) -/
theorem C3_amended (axis : Vec3) (hunit : vec3Norm axis = 1) (k N : ℕ)
    (hk : 1 ≤ k) (hN : 0 < N)
    (hstep : 2 * PI * (k : ℝ) / (N : ℝ) ≤ PI - EPSILON) :
    (generateLoop axis (2 * PI * (k : ℝ)) N).jumpIndices.length = k ∧
    (∀ i ∈ (generateLoop axis (2 * PI * (k : ℝ)) N).jumpIndices,
      PI < vec3Norm (vec3Sub
        ((generateLoop axis (2 * PI * (k : ℝ)) N).points.getD i (vec3 0 0 0))
        ((generateLoop axis (2 * PI * (k : ℝ)) N).points.getD (i - 1) (vec3 0 0 0)))) ∧
    (∀ j, j < k →
      |(((generateLoop axis (2 * PI * (k : ℝ)) N).jumpIndices.getD j 0 : ℕ) : ℝ) / (N : ℝ)
        - (2 * (j : ℝ) + 1) / (2 * (k : ℝ))| ≤ 1 / (N : ℝ)) := by
  have hNr : (0:ℝ) < N := by exact_mod_cast hN
  have h2kr : (0:ℝ) < 2 * (k : ℝ) := by
    have : (0:ℝ) < k := by exact_mod_cast hk
    linarith
  have h2k0 : 0 < 2 * k := by omega
  refine ⟨?_, ?_, ?_⟩
  · rw [jumpIndices_eq axis hunit k N hk hN hstep]
    rw [List.length_map, List.length_range]
  · intro i hi
    rw [generateLoop_jumpIndices] at hi
    have hp := (List.mem_filter.mp hi).2
    dsimp only at hp
    exact of_decide_eq_true hp
  · intro j hj
    rw [jumpIndices_eq axis hunit k N hk hN hstep, getD_map_range (jumpIdx k N) hj 0]
    have hlow : ((jumpIdx k N j - 1 : ℕ) : ℝ) * (2 * (k : ℝ)) ≤
        (2 * (j : ℝ) + 1) * (N : ℝ) := by
      have h1 : jumpIdx k N j - 1 = (2 * j + 1) * N / (2 * k) := by
        unfold jumpIdx; exact Nat.add_sub_cancel _ _
      have h2 : (jumpIdx k N j - 1) * (2 * k) ≤ (2 * j + 1) * N := by
        rw [h1]; exact Nat.div_mul_le_self _ _
      have h3 : ((jumpIdx k N j - 1 : ℕ) : ℝ) * ((2 * k : ℕ) : ℝ) ≤
          (((2 * j + 1) * N : ℕ) : ℝ) := by exact_mod_cast h2
      push_cast at h3
      linarith
    have hhigh : (2 * (j : ℝ) + 1) * (N : ℝ) < ((jumpIdx k N j : ℕ) : ℝ) * (2 * (k : ℝ)) := by
      have h2 : (2 * j + 1) * N < jumpIdx k N j * (2 * k) := by
        rw [← Nat.div_lt_iff_lt_mul h2k0]
        unfold jumpIdx
        omega
      have h3 : (((2 * j + 1) * N : ℕ) : ℝ) <
          ((jumpIdx k N j : ℕ) : ℝ) * ((2 * k : ℕ) : ℝ) := by exact_mod_cast h2
      push_cast at h3
      linarith
    have hi1 : 1 ≤ jumpIdx k N j := Nat.le_add_left 1 _
    have hcast : ((jumpIdx k N j - 1 : ℕ) : ℝ) = ((jumpIdx k N j : ℕ) : ℝ) - 1 := by
      rw [Nat.cast_sub hi1]; norm_num
    rw [hcast] at hlow
    have hup : (((jumpIdx k N j : ℕ) : ℝ) - 1) / (N : ℝ) ≤
        (2 * (j : ℝ) + 1) / (2 * (k : ℝ)) := by
      rw [div_le_div_iff hNr h2kr]
      linarith
    have hdown : (2 * (j : ℝ) + 1) / (2 * (k : ℝ)) < ((jumpIdx k N j : ℕ) : ℝ) / (N : ℝ) := by
      rw [div_lt_div_iff h2kr hNr]
      linarith
    have hone : ((jumpIdx k N j : ℕ) : ℝ) / (N : ℝ) -
        (((jumpIdx k N j : ℕ) : ℝ) - 1) / (N : ℝ) = 1 / (N : ℝ) := by
      field_simp
    have hN1 : (0:ℝ) < 1 / (N : ℝ) := by positivity
    rw [abs_le]
    constructor
    · linarith
    · linarith

theorem C3_amended_witness :
    (generateLoop (vec3 0 0 1) (2 * PI * ((1 : ℕ) : ℝ)) 8).jumpIndices.length = 1 :=
  (C3_amended (vec3 0 0 1) vec3Norm_z_unit 1 8 (by norm_num) (by norm_num)
    (by
      push_cast
      nlinarith [PI_gt_three, EPSILON_lt_one])).1

theorem PI_lt_315 : PI < 3.15 := Real.pi_lt_315

theorem ballCoef_odd (m : ℕ) : ballCoef ((2 * (m : ℝ) + 1) * PI) = PI := by
  have hPI := PI_pos
  have hw : wrapTwoPi ((2 * (m : ℝ) + 1) * PI) = PI := by
    have h := wrapTwoPi_eq_sub ((2 * (m : ℝ) + 1) * PI) (m : ℤ) (by push_cast; nlinarith)
      (by push_cast; nlinarith)
    rw [h]
    push_cast
    ring
  rw [ballCoef_low (by rw [hw]; linarith [EPSILON_lt_PI]) (by rw [hw]), hw]

theorem ballCoef_pre_band (m : ℕ) (d : ℝ) (h1 : 0 < d) (h2 : d < EPSILON) :
    ballCoef (2 * PI * ((m : ℝ) + 1) - d) = 0 := by
  have hPI := PI_pos
  have hEP := EPSILON_lt_PI
  have hw : wrapTwoPi (2 * PI * ((m : ℝ) + 1) - d) = 2 * PI - d := by
    have h := wrapTwoPi_eq_sub (2 * PI * ((m : ℝ) + 1) - d) (m : ℤ)
      (by push_cast; nlinarith) (by push_cast; nlinarith)
    rw [h]
    push_cast
    ring
  apply ballCoef_band
  right
  rw [hw, show 2 * PI - d - 2 * PI = -d by ring, abs_neg, abs_of_pos h1]
  exact h2

theorem jump_nat {k N : ℕ} (hk : 1 ≤ k) (hN : 0 < N) (hkN : 2 * k < N) {i : ℕ}
    (h1i : 1 ≤ i) (h2i : i ≤ N)
    (hj : PI < |ballCoef ((i : ℝ) / (N : ℝ) * (2 * PI * (k : ℝ)))
      - ballCoef (((i - 1 : ℕ) : ℝ) / (N : ℝ) * (2 * PI * (k : ℝ)))|) :
    ∃ m : ℕ, m < k ∧ (i - 1) * (2 * k) ≤ (2 * m + 1) * N ∧ (2 * m + 1) * N < i * (2 * k) := by
  have hNr : (0:ℝ) < N := by exact_mod_cast hN
  have hkr : (0:ℝ) < k := by exact_mod_cast hk
  have hPI := PI_pos
  have hsub : (i : ℝ) / (N : ℝ) * (2 * PI * (k : ℝ)) -
      ((i - 1 : ℕ) : ℝ) / (N : ℝ) * (2 * PI * (k : ℝ)) = 2 * PI * (k : ℝ) / (N : ℝ) := by
    rw [Nat.cast_sub h1i]
    push_cast
    field_simp
    ring
  have hstv : 2 * PI * (k : ℝ) / (N : ℝ) < PI := by
    rw [div_lt_iff hNr]
    have hc : (2 * (k : ℝ)) < (N : ℝ) := by exact_mod_cast hkN
    nlinarith
  have h0 : 0 ≤ ((i - 1 : ℕ) : ℝ) / (N : ℝ) * (2 * PI * (k : ℝ)) := by positivity
  have huv : ((i - 1 : ℕ) : ℝ) / (N : ℝ) * (2 * PI * (k : ℝ)) <
      (i : ℝ) / (N : ℝ) * (2 * PI * (k : ℝ)) := by
    have hstv_pos : 0 < 2 * PI * (k : ℝ) / (N : ℝ) := by positivity
    linarith [hsub]
  have hsp : (i : ℝ) / (N : ℝ) * (2 * PI * (k : ℝ)) -
      ((i - 1 : ℕ) : ℝ) / (N : ℝ) * (2 * PI * (k : ℝ)) < PI := by
    rw [hsub]
    exact hstv
  obtain ⟨m, hm1, hm2⟩ := jump_implies_crossing h0 huv hsp hj
  have hm1n : (i - 1) * (2 * k) ≤ (2 * m + 1) * N := by
    rw [u_scaled, odd_scaled hNr m] at hm1
    exact (scaled_le_iff hNr _ _).mp hm1
  have hm2n : (2 * m + 1) * N < i * (2 * k) := by
    rw [u_scaled, odd_scaled hNr m] at hm2
    exact (scaled_lt_iff hNr _ _).mp hm2
  have hmk : m < k := by
    have hlt : (2 * m + 1) * N < 2 * k * N := by
      calc (2 * m + 1) * N < i * (2 * k) := hm2n
        _ ≤ N * (2 * k) := Nat.mul_le_mul_right _ h2i
        _ = 2 * k * N := by ring
    have h21 : 2 * m + 1 < 2 * k := by
      by_contra hc
      push_neg at hc
      exact absurd (Nat.mul_le_mul_right N hc) (not_le.mpr hlt)
    omega
  exact ⟨m, hmk, hm1n, hm2n⟩

theorem i0_not_jump :
    ¬ (PI < |ballCoef (((2^35 + 1 : ℕ) : ℝ) / ((2^36 : ℕ) : ℝ) *
        (2 * PI * ((2^35 - 1 : ℕ) : ℝ)))
      - ballCoef (((2^35 + 1 - 1 : ℕ) : ℝ) / ((2^36 : ℕ) : ℝ) *
        (2 * PI * ((2^35 - 1 : ℕ) : ℝ)))|) := by
  have e0 : (2^35 + 1 - 1 : ℕ) = 2^35 := by norm_num
  rw [e0]
  have E1 : ((2^35 : ℕ) : ℝ) / ((2^36 : ℕ) : ℝ) * (2 * PI * ((2^35 - 1 : ℕ) : ℝ)) =
      (2 * ((2^34 - 1 : ℕ) : ℝ) + 1) * PI := by
    norm_num
    ring_nf
  have E2 : ((2^35 + 1 : ℕ) : ℝ) / ((2^36 : ℕ) : ℝ) * (2 * PI * ((2^35 - 1 : ℕ) : ℝ)) =
      2 * PI * (((2^34 - 1 : ℕ) : ℝ) + 1) - PI / 2^35 := by
    norm_num
    field_simp
    ring_nf
  have hd : PI / 2^35 < EPSILON := by
    rw [div_lt_iff (by norm_num : (0:ℝ) < 2^35), show EPSILON = 1 / 10^10 from rfl]
    calc PI < 3.15 := PI_lt_315
      _ ≤ 1 / 10^10 * 2^35 := by norm_num
  rw [E1, E2, ballCoef_odd (2^34 - 1),
    ballCoef_pre_band (2^34 - 1) (PI / 2^35)
      (div_pos PI_pos (by norm_num : (0:ℝ) < 2^35)) hd]
  rw [zero_sub, abs_neg, abs_of_pos PI_pos]
  exact lt_irrefl PI

theorem jump_count_lt (k N : ℕ) (hk : 1 ≤ k) (hN : 0 < N) (hkN : 2 * k < N)
    (m0 : ℕ) (hm0 : m0 < k) (i0 : ℕ)
    (huniq : ∀ i, 1 ≤ i → i ≤ N →
      (i - 1) * (2 * k) ≤ (2 * m0 + 1) * N → (2 * m0 + 1) * N < i * (2 * k) → i = i0)
    (hnj : ¬ (PI < |ballCoef ((i0 : ℝ) / (N : ℝ) * (2 * PI * (k : ℝ)))
      - ballCoef (((i0 - 1 : ℕ) : ℝ) / (N : ℝ) * (2 * PI * (k : ℝ)))|)) :
    ((List.range' 1 N).filter (fun (i : ℕ) =>
      decide (PI < |ballCoef ((i : ℝ) / (N : ℝ) * (2 * PI * (k : ℝ)))
        - ballCoef (((i - 1 : ℕ) : ℝ) / (N : ℝ) * (2 * PI * (k : ℝ)))|))).length < k := by
  classical
  set F := (List.range' 1 N).filter (fun (i : ℕ) =>
      decide (PI < |ballCoef ((i : ℝ) / (N : ℝ) * (2 * PI * (k : ℝ)))
        - ballCoef (((i - 1 : ℕ) : ℝ) / (N : ℝ) * (2 * PI * (k : ℝ)))|)) with hF
  have hnodup : F.Nodup := List.Nodup.filter _ (List.nodup_range' 1 N)
  have hex : ∀ i : ℕ, ∃ m : ℕ, i ∈ F →
      m < k ∧ m ≠ m0 ∧ (i - 1) * (2 * k) ≤ (2 * m + 1) * N ∧
        (2 * m + 1) * N < i * (2 * k) := by
    intro i
    by_cases hi : i ∈ F
    · rw [hF, List.mem_filter] at hi
      obtain ⟨hir, hpr⟩ := hi
      obtain ⟨h1i, h2i'⟩ := List.mem_range'_1.mp hir
      have h2i : i ≤ N := by omega
      have hj := of_decide_eq_true hpr
      obtain ⟨m, hmk, hb1, hb2⟩ := jump_nat hk hN hkN h1i h2i hj
      refine ⟨m, fun _ => ⟨hmk, ?_, hb1, hb2⟩⟩
      intro hmeq
      rw [hmeq] at hb1 hb2
      have hieq := huniq i h1i h2i hb1 hb2
      rw [hieq] at hj
      exact hnj hj
    · exact ⟨0, fun h => absurd h hi⟩
  choose g hg using hex
  have hmaps : ∀ i ∈ F.toFinset, g i ∈ (Finset.range k).erase m0 := by
    intro i hi
    have hh := hg i (List.mem_toFinset.mp hi)
    exact Finset.mem_erase.mpr ⟨hh.2.1, Finset.mem_range.mpr hh.1⟩
  have hinj : Set.InjOn g ↑F.toFinset := by
    intro a ha b hb hab
    have hha := hg a (List.mem_toFinset.mp (Finset.mem_coe.mp ha))
    have hhb := hg b (List.mem_toFinset.mp (Finset.mem_coe.mp hb))
    rcases lt_trichotomy a b with h | h | h
    · have h1 : a ≤ b - 1 := by omega
      have h2 : a * (2 * k) ≤ (b - 1) * (2 * k) := Nat.mul_le_mul_right _ h1
      have h3 : (2 * g a + 1) * N < a * (2 * k) := hha.2.2.2
      have h4 : (b - 1) * (2 * k) ≤ (2 * g b + 1) * N := hhb.2.2.1
      rw [hab] at h3
      exact absurd (lt_of_lt_of_le h3 (le_trans h2 h4)) (lt_irrefl _)
    · exact h
    · have h1 : b ≤ a - 1 := by omega
      have h2 : b * (2 * k) ≤ (a - 1) * (2 * k) := Nat.mul_le_mul_right _ h1
      have h3 : (2 * g b + 1) * N < b * (2 * k) := hhb.2.2.2
      have h4 : (a - 1) * (2 * k) ≤ (2 * g a + 1) * N := hha.2.2.1
      rw [hab] at h4
      exact absurd (lt_of_lt_of_le h3 (le_trans h2 h4)) (lt_irrefl _)
  have hcard := Finset.card_le_card_of_injOn g hmaps hinj
  rw [List.toFinset_card_of_nodup hnodup,
    Finset.card_erase_of_mem (Finset.mem_range.mpr hm0), Finset.card_range] at hcard
  omega

/-- C3 (counterexample): for the unit axis `(0,0,1)`, winding count
`k = 2^35 − 1` and sample count `N = 2^36`, the angular step `2πk/N` is
strictly below π as the claim requires, yet the loop reports fewer than `k`
jump indices: sample `2^35` lands exactly on the odd multiple `(2^35−1)π`
while sample `2^35 + 1` falls inside the EPSILON snap band below `2^35·π`,
so its ball point is snapped to the origin and the crossing distance is
exactly π, not greater. -/
theorem C3_counterexample :
    vec3Norm (vec3 0 0 1) = 1 ∧ (1 : ℕ) ≤ 2^35 - 1 ∧
    2 * PI * ((2^35 - 1 : ℕ) : ℝ) / ((2^36 : ℕ) : ℝ) < PI ∧
    (generateLoop (vec3 0 0 1) (2 * PI * ((2^35 - 1 : ℕ) : ℝ)) (2^36)).jumpIndices.length ≠
      2^35 - 1 := by
  refine ⟨vec3Norm_z_unit, by norm_num, ?_, ?_⟩
  · rw [div_lt_iff (by norm_num : (0:ℝ) < ((2^36 : ℕ) : ℝ))]
    norm_num
    nlinarith [PI_pos]
  · have hlt : (generateLoop (vec3 0 0 1) (2 * PI * ((2^35 - 1 : ℕ) : ℝ))
        (2^36)).jumpIndices.length < 2^35 - 1 := by
      rw [jumpIndices_scalar (vec3 0 0 1) vec3Norm_z_unit (2 * PI * ((2^35 - 1 : ℕ) : ℝ)) (2^36)]
      exact jump_count_lt (2^35 - 1) (2^36) (by norm_num) (by norm_num) (by norm_num)
        (2^34 - 1) (by norm_num) (2^35 + 1)
        (by
          intro i h1 h2 hb1 hb2
          norm_num at hb1 hb2 ⊢
          omega)
        i0_not_jump
    omega
